import Mathlib

/-!
Shallow embedding of the `rust-rocksdb` key/value storage engine
(`src/entry.rs`, `src/storage.rs`, `src/storage_iterator.rs`,
`src/memtable.rs`, `src/db.rs`) together with proofs of the spec's
testable properties.

Bytes are modelled as natural numbers (every encoder below emits values
`< 256`; the decoder reduces modulo 256 exactly as reading a `u8` would).
Machine integers (`u64`, `u128`, `usize`) are modelled as `Nat` with
explicit truncation via little-endian byte encodings of a fixed width.
Fallible paths (`io::Result`, `Option::unwrap`) are modelled with
`Option`/error flags: a `none` result marks a panic of the Rust code.
-/

/-- One log record, mirroring `Entry` in `src/entry.rs`:
`key: Vec<u8>`, `value: Option<Vec<u8>>`, `timestamp: u128`, `deleted: bool`. -/
structure Entry where
  key : List Nat
  value : Option (List Nat)
  timestamp : Nat
  deleted : Bool
deriving DecidableEq, Repr

/-- Lexicographic comparison of byte vectors, mirroring `Ord` on `Vec<u8>`
(used by `MemTable::get_index` through `binary_search_by_key`). -/
def keyCmp : List Nat → List Nat → Ordering
  | [], [] => .eq
  | [], _ :: _ => .lt
  | _ :: _, [] => .gt
  | a :: as, b :: bs => if a < b then .lt else if b < a then .gt else keyCmp as bs

/-- Little-endian encoding of `n` into `w` bytes, as `to_le_bytes` on a
`w`-byte unsigned integer (truncating at `2 ^ (8 * w)`). -/
def toLeBytes : Nat → Nat → List Nat
  | 0, _ => []
  | w + 1, n => n % 256 :: toLeBytes w (n / 256)

/-- Little-endian decoding, as `from_le_bytes`; each byte is reduced
modulo 256 (a real `u8` already is). -/
def fromLeBytes : List Nat → Nat
  | [] => 0
  | b :: bs => b % 256 + 256 * fromLeBytes bs

/-- The bytes `Storage::set` appends for one record
(`src/storage.rs` lines 54-71): `key_size` as `u64` little-endian (8 bytes),
the `deleted` flag byte, `value_size` as `u64` (8 bytes), key bytes,
value bytes, then the `u128` timestamp (16 bytes). -/
def Storage.setRecord (key value : List Nat) (deleted : Bool) (ts : Nat) : List Nat :=
  toLeBytes 8 key.length ++ [if deleted then 1 else 0] ++ toLeBytes 8 value.length
    ++ key ++ value ++ toLeBytes 16 ts

/-- The bytes `Storage::delete` appends for one tombstone
(`src/storage.rs` lines 73-84).  The source writes `key.len().to_le_bytes()`,
i.e. the NATIVE width of `usize` (`usizeW` bytes), then flag byte 1, then
`value_size = 0` as `u64` (8 bytes), the key, and the 16-byte timestamp. -/
def Storage.deleteRecord (usizeW : Nat) (key : List Nat) (ts : Nat) : List Nat :=
  toLeBytes usizeW key.length ++ [1] ++ toLeBytes 8 0 ++ key ++ toLeBytes 16 ts

/-- `read_exact` on a buffered reader: succeeds returning the first `n`
bytes and the remaining stream iff at least `n` bytes remain. -/
def readExact (n : Nat) (bs : List Nat) : Option (List Nat × List Nat) :=
  if n ≤ bs.length then some (bs.take n, bs.drop n) else none

/-- One step of `StorageIterator::next` (`src/storage_iterator.rs` lines
29-68): read the 17-byte header, decode `key_size`, the deleted flag
(`buffer[8] != 0`) and `value_size`, read the key, read the value only when
not deleted, read the 16-byte timestamp; any short read yields `none`. -/
def parseEntry (bs : List Nat) : Option (Entry × List Nat) :=
  match readExact 17 bs with
  | none => none
  | some (header, r1) =>
    let keySize := fromLeBytes (header.take 8)
    let deleted := header.getD 8 0 != 0
    let valueSize := fromLeBytes (header.drop 9)
    match readExact keySize r1 with
    | none => none
    | some (key, r2) =>
      if deleted then
        match readExact 16 r2 with
        | none => none
        | some (tsb, r4) => some (⟨key, none, fromLeBytes tsb, true⟩, r4)
      else
        match readExact valueSize r2 with
        | none => none
        | some (value, r3) =>
          match readExact 16 r3 with
          | none => none
          | some (tsb, r4) => some (⟨key, some value, fromLeBytes tsb, false⟩, r4)

theorem readExact_length {n : Nat} {bs xs rest : List Nat}
    (h : readExact n bs = some (xs, rest)) :
    xs.length = n ∧ rest.length + n = bs.length := by
  unfold readExact at h
  split at h
  · injection h with h
    injection h with h1 h2
    subst h1; subst h2
    constructor
    · exact List.length_take_of_le (by omega)
    · simp [List.length_drop]; omega
  · cases h

theorem parseEntry_rest_length {bs : List Nat} {e : Entry} {rest : List Nat}
    (h : parseEntry bs = some (e, rest)) : rest.length < bs.length := by
  unfold parseEntry at h
  cases h17 : readExact 17 bs with
  | none => rw [h17] at h; cases h
  | some p =>
    obtain ⟨header, r1⟩ := p
    rw [h17] at h
    simp only at h
    obtain ⟨-, hr1⟩ := readExact_length h17
    cases hk : readExact (fromLeBytes (header.take 8)) r1 with
    | none => rw [hk] at h; cases h
    | some q =>
      obtain ⟨key, r2⟩ := q
      rw [hk] at h
      obtain ⟨-, hr2⟩ := readExact_length hk
      simp only at h
      split at h
      · cases hts : readExact 16 r2 with
        | none => rw [hts] at h; cases h
        | some t =>
          obtain ⟨tsb, r4⟩ := t
          rw [hts] at h
          obtain ⟨-, hr4⟩ := readExact_length hts
          injection h with h
          injection h with h1 h2
          subst h2; omega
      · cases hv : readExact (fromLeBytes (header.drop 9)) r2 with
        | none => rw [hv] at h; cases h
        | some v =>
          obtain ⟨value, r3⟩ := v
          rw [hv] at h
          obtain ⟨-, hr3⟩ := readExact_length hv
          simp only at h
          cases hts : readExact 16 r3 with
          | none => rw [hts] at h; cases h
          | some t =>
            obtain ⟨tsb, r4⟩ := t
            rw [hts] at h
            obtain ⟨-, hr4⟩ := readExact_length hts
            injection h with h
            injection h with h1 h2
            subst h2; omega

/-- The full iteration of `StorageIterator` over one segment's bytes:
records are parsed until the first short read, which ends the sequence. -/
def parseAll (bs : List Nat) : List Entry :=
  match h : parseEntry bs with
  | none => []
  | some (e, rest) => e :: parseAll rest
termination_by bs.length
decreasing_by exact parseEntry_rest_length h

/-- The in-memory index, mirroring `MemTable` in `src/memtable.rs`:
a key-sorted vector of entries plus the approximate-footprint counter. -/
structure MemTable where
  entities : List Entry
  size : Nat
deriving DecidableEq, Repr

/-- `MemTable::new`. -/
def MemTable.new : MemTable := ⟨[], 0⟩

/-- Recursion underlying `MemTable::set_or_insert` (`src/memtable.rs` lines
41-67).  On the key-sorted vector, `binary_search_by_key` followed by a
replacement (`Ok`) or an insertion at the returned slot (`Err`) is exactly
this ordered walk.  Size updates follow the source branch for branch:
replace over an old live value adds `value.len()` then subtracts the old
value length; replace over a tombstone adds `value.len()`; a fresh insert
adds `key.len() + value.len() + 16 + 1`. -/
def setGo (key value : List Nat) (ts : Nat) : List Entry → Nat → List Entry × Nat
  | [], size => ([⟨key, some value, ts, false⟩], size + (key.length + value.length + 17))
  | x :: xs, size =>
    match keyCmp key x.key with
    | .lt => (⟨key, some value, ts, false⟩ :: x :: xs, size + (key.length + value.length + 17))
    | .eq =>
      match x.value with
      | some oldv => (⟨key, some value, ts, false⟩ :: xs, size + value.length - oldv.length)
      | none => (⟨key, some value, ts, false⟩ :: xs, size + value.length)
    | .gt =>
      let r := setGo key value ts xs size
      (x :: r.1, r.2)

/-- `MemTable::set_or_insert`. -/
def MemTable.set_or_insert (mt : MemTable) (key value : List Nat) (ts : Nat) : MemTable :=
  let r := setGo key value ts mt.entities mt.size
  ⟨r.1, r.2⟩

/-- Recursion underlying `MemTable::delete` (`src/memtable.rs` lines 69-89),
with the same correspondence to `binary_search_by_key`: replacing an entry
with an old live value subtracts that value's length; replacing a tombstone
leaves the size unchanged; inserting for an absent key adds
`key.len() + 16 + 1`. -/
def delGo (key : List Nat) (ts : Nat) : List Entry → Nat → List Entry × Nat
  | [], size => ([⟨key, none, ts, true⟩], size + (key.length + 17))
  | x :: xs, size =>
    match keyCmp key x.key with
    | .lt => (⟨key, none, ts, true⟩ :: x :: xs, size + (key.length + 17))
    | .eq =>
      match x.value with
      | some oldv => (⟨key, none, ts, true⟩ :: xs, size - oldv.length)
      | none => (⟨key, none, ts, true⟩ :: xs, size)
    | .gt =>
      let r := delGo key ts xs size
      (x :: r.1, r.2)

/-- `MemTable::delete`. -/
def MemTable.delete (mt : MemTable) (key : List Nat) (ts : Nat) : MemTable :=
  let r := delGo key ts mt.entities mt.size
  ⟨r.1, r.2⟩

/-- Recursion underlying `MemTable::get` via `binary_search_by_key` on the
sorted vector: the first entry whose key is not below `key` decides. -/
def getGo (key : List Nat) : List Entry → Option Entry
  | [] => none
  | x :: xs =>
    match keyCmp key x.key with
    | .lt => none
    | .eq => some x
    | .gt => getGo key xs

/-- `MemTable::get`. -/
def MemTable.get (mt : MemTable) (key : List Nat) : Option Entry :=
  getGo key mt.entities

/-- Engine state (`Db` in `src/db.rs`): the directory's segment files in
filename (= creation-time) order, split into the prior segments and the
active segment the `Storage` writer appends to.  The model assumes each new
segment's microsecond filename is fresh, so the active segment sorts last. -/
structure Db where
  others : List (List Nat)
  active : List Nat
  mem : MemTable
deriving DecidableEq, Repr

/-- The directory contents in sorted filename order. -/
def Db.dir (db : Db) : List (List Nat) := db.others ++ [db.active]

/-- `Db::new` on a fresh empty directory: a new empty segment, empty memtable. -/
def Db.freshOpen : Db := ⟨[], [], MemTable.new⟩

/-- `Db::set` with the wall-clock microsecond reading passed explicitly and
both I/O steps succeeding (`src/db.rs` lines 87-99): append the live record,
flush, then update the memtable. -/
def Db.set (db : Db) (key value : List Nat) (ts : Nat) : Db :=
  { db with
    active := db.active ++ Storage.setRecord key value false ts
    mem := db.mem.set_or_insert key value ts }

/-- `Db::delete` with explicit timestamp and successful I/O (`src/db.rs`
lines 113-126); segment writes go through `Storage::delete`, whose `usize`
width is 8 bytes on the 64-bit host. -/
def Db.delete (db : Db) (key : List Nat) (ts : Nat) : Db :=
  { db with
    active := db.active ++ Storage.deleteRecord 8 key ts
    mem := db.mem.delete key ts }

/-- `Db::get` (`src/db.rs` lines 101-111): a clone of the memtable's entry. -/
def Db.get (db : Db) (key : List Nat) : Option Entry :=
  db.mem.get key

/-- One mutating engine call with its wall-clock timestamp. -/
inductive Op where
  | set (key value : List Nat) (ts : Nat)
  | del (key : List Nat) (ts : Nat)
deriving DecidableEq, Repr

/-- Apply one call to the engine. -/
def applyOp (db : Db) : Op → Db
  | .set k v ts => db.set k v ts
  | .del k ts => db.delete k ts

/-- Run a call sequence on an engine freshly opened on an empty directory. -/
def runOps (ops : List Op) : Db :=
  ops.foldl applyOp Db.freshOpen

/-- The memtable effect of one call. -/
def applyMem (mt : MemTable) : Op → MemTable
  | .set k v ts => mt.set_or_insert k v ts
  | .del k ts => mt.delete k ts

/-- Folding one recovered record into the memtable, as the per-entry body of
`Db::init_from_existing` (`src/db.rs` lines 46-52): live records go through
`set_or_insert` on `entry.value.unwrap()` (`none` marks the unwrap panic),
tombstones through `delete`. -/
def foldRecover (mt : MemTable) (e : Entry) : Option MemTable :=
  if e.deleted = false then
    e.value.map (fun v => mt.set_or_insert e.key v e.timestamp)
  else
    some (mt.delete e.key e.timestamp)

/-- Folding every record of one segment file into the memtable. -/
def recoverFile (mt : MemTable) (f : List Nat) : Option MemTable :=
  (parseAll f).foldlM foldRecover mt

/-- The recovery scan of `Db::init_from_existing`: all files in filename
order, all records in file order. -/
def recoverMem (files : List (List Nat)) : Option MemTable :=
  files.foldlM recoverFile MemTable.new

/-- Re-emitting one memtable entry to the fresh segment (`src/db.rs` lines
59-70): live entries via `Storage::set` on `entry.value.as_ref().unwrap()`
(`none` marks the unwrap panic), tombstones via `Storage::delete`. -/
def dumpEntry (e : Entry) : Option (List Nat) :=
  if e.deleted = false then
    e.value.map (fun v => Storage.setRecord e.key v false e.timestamp)
  else
    some (Storage.deleteRecord 8 e.key e.timestamp)

/-- The full dump of the memtable into the new segment's bytes. -/
def dumpMem (mt : MemTable) : Option (List Nat) :=
  mt.entities.foldlM (fun acc e => (dumpEntry e).map (fun r => acc ++ r)) []

/-- `Db::init_from_existing` (`src/db.rs` lines 40-85) on a directory whose
files (in sorted filename order) are given: fold every record of every file
into a fresh memtable, dump the memtable into a new segment, then remove the
scanned files, leaving the new segment as the only file. -/
def initFromExisting (files : List (List Nat)) : Option Db :=
  (recoverMem files).bind fun mt =>
    (dumpMem mt).map fun nf => ⟨[], nf, mt⟩

/-- `Db::get_snapshot` (`src/db.rs` lines 128-144): for each non-deleted
memtable entry, in key order, append `key_size (8B LE) | deleted flag (0) |
value_size (8B LE) | key | value | timestamp (16B LE)` — the bytes of
`Storage.setRecord`; `data.value.as_ref().unwrap()` is the `Option.map`. -/
def Db.getSnapshot (db : Db) : Option (List Nat) :=
  db.mem.entities.foldlM
    (fun acc e =>
      if e.deleted = false then
        e.value.map (fun v => acc ++ Storage.setRecord e.key v false e.timestamp)
      else some acc)
    []

/-- The per-entry fold of `Db::set_snapshot` (`src/db.rs` lines 150-153):
every record of the newest segment is pushed through
`set_or_insert(key, value.unwrap(), ts)` — tombstones make the unwrap panic
(`none`). -/
def snapStep (mt : MemTable) (e : Entry) : Option MemTable :=
  e.value.map (fun v => mt.set_or_insert e.key v e.timestamp)

/-- `Db::set_snapshot` (`src/db.rs` lines 146-156): append the blob to the
active segment, flush, rescan the directory, and fold every record of the
lexicographically last file (the active segment, whose timestamp name is
newest) into the memtable via `snapStep`. -/
def Db.setSnapshot (db : Db) (blob : List Nat) : Option Db :=
  let a := db.active ++ blob
  ((parseAll a).foldlM snapStep db.mem).map fun mt =>
    { db with active := a, mem := mt }

/-- Failure-injected `Db::set`: `appendOk` is the outcome of
`storage.set(...)`, `commitOk` of `storage.commit()`.  The `?` operator
propagates the first error; only after both succeed is the memtable updated.
The result records the propagated error (if any) and the memtable state
after the call. -/
def Db.setChecked (db : Db) (key value : List Nat) (ts : Nat)
    (appendOk commitOk : Bool) : Option Unit × MemTable :=
  if appendOk = false then (some (), db.mem)
  else if commitOk = false then (some (), db.mem)
  else (none, db.mem.set_or_insert key value ts)

/-- Failure-injected `Db::delete`, same shape as `Db.setChecked`. -/
def Db.deleteChecked (db : Db) (key : List Nat) (ts : Nat)
    (appendOk commitOk : Bool) : Option Unit × MemTable :=
  if appendOk = false then (some (), db.mem)
  else if commitOk = false then (some (), db.mem)
  else (none, db.mem.delete key ts)

/-- The record a call writes, as the segment iterator will hand it back. -/
def recordOf : Op → Entry
  | .set k v ts => ⟨k, some v, ts, false⟩
  | .del k ts => ⟨k, none, ts, true⟩

/-- The key of a call. -/
def opKey : Op → List Nat
  | .set k _ _ => k
  | .del k _ => k

/-- The last call whose key is `k`, scanning left to right. -/
def lastWrite (ops : List Op) (k : List Nat) : Option Op :=
  ops.foldl (fun acc op => if opKey op = k then some op else acc) none

/-- The bytes one call appends to the active segment. -/
def opBytes : Op → List Nat
  | .set k v ts => Storage.setRecord k v false ts
  | .del k ts => Storage.deleteRecord 8 k ts

/-- Segment bytes of a record list, each entry encoded the way the engine's
dump writes it (live via `Storage::set`, tombstone via `Storage::delete`). -/
def encodeEntry (e : Entry) : List Nat :=
  if e.deleted then Storage.deleteRecord 8 e.key e.timestamp
  else Storage.setRecord e.key (e.value.getD []) false e.timestamp

/-- A well-formed concatenation-of-records segment. -/
def segmentOf (rs : List Entry) : List Nat :=
  (rs.map encodeEntry).flatten

/-- Removing the last `m` bytes of a file. -/
def truncTail (bs : List Nat) (m : Nat) : List Nat :=
  bs.take (bs.length - m)

/-- In-range sizes and the value/tombstone agreement of the record model:
the key fits the 8-byte size field, the timestamp its 16 bytes, a live entry
holds a value that fits its size field, a tombstone holds none. -/
def EntryWf (e : Entry) : Prop :=
  e.key.length < 2 ^ 64 ∧ e.timestamp < 2 ^ 128 ∧
    (match e.value with
     | some v => e.deleted = false ∧ v.length < 2 ^ 64
     | none => e.deleted = true)

instance (e : Entry) : Decidable (EntryWf e) := by
  rcases e with ⟨k, v, ts, d⟩
  rcases v with - | v <;>
    · simp only [EntryWf]
      exact inferInstance

/-- Value presence agrees with the tombstone flag (true of every entry the
engine ever constructs). -/
def EntryOk (e : Entry) : Prop :=
  match e.value with
  | some _ => e.deleted = false
  | none => e.deleted = true

instance (e : Entry) : Decidable (EntryOk e) := by
  rcases e with ⟨k, v, ts, d⟩
  rcases v with - | v <;>
    · simp only [EntryOk]
      exact inferInstance

/-- Size bounds for the arguments of one engine call. -/
def OpWf : Op → Prop
  | .set k v ts => k.length < 2 ^ 64 ∧ v.length < 2 ^ 64 ∧ ts < 2 ^ 128
  | .del k ts => k.length < 2 ^ 64 ∧ ts < 2 ^ 128

instance (op : Op) : Decidable (OpWf op) := by
  unfold OpWf
  cases op <;> exact inferInstance

/-- Strict key-sortedness of the memtable vector (the `binary_search_by_key`
precondition, maintained by every mutation). -/
def SortedEnts (l : List Entry) : Prop :=
  l.Pairwise (fun a b => keyCmp a.key b.key = .lt)

/-- The per-entry footprint charge of the spec's size-accounting formula:
`key_len + (value_len if live else 0) + 17`. -/
def charge (e : Entry) : Nat :=
  e.key.length + (if e.deleted then 0 else (e.value.getD []).length) + 17

theorem keyCmp_self (a : List Nat) : keyCmp a a = .eq := by
  induction a with
  | nil => rfl
  | cons x xs ih => simp [keyCmp, ih]

theorem keyCmp_eq_iff {a b : List Nat} : keyCmp a b = .eq ↔ a = b := by
  induction a generalizing b with
  | nil => cases b <;> simp [keyCmp]
  | cons x xs ih =>
    cases b with
    | nil => simp [keyCmp]
    | cons y ys =>
      by_cases hxy : x < y
      · simp [keyCmp, hxy]
        omega
      · by_cases hyx : y < x
        · simp [keyCmp, hxy, hyx]
          omega
        · have hx : x = y := by omega
          subst hx
          simp [keyCmp, hxy, hyx, ih]

theorem keyCmp_gt_iff_lt {a b : List Nat} : keyCmp a b = .gt ↔ keyCmp b a = .lt := by
  induction a generalizing b with
  | nil => cases b <;> simp [keyCmp]
  | cons x xs ih =>
    cases b with
    | nil => simp [keyCmp]
    | cons y ys =>
      by_cases hxy : x < y
      · have : ¬ y < x := by omega
        simp [keyCmp, hxy, this]
      · by_cases hyx : y < x
        · simp [keyCmp, hxy, hyx]
        · simp [keyCmp, hxy, hyx, ih]

theorem keyCmp_lt_trans {a b c : List Nat}
    (hab : keyCmp a b = .lt) (hbc : keyCmp b c = .lt) : keyCmp a c = .lt := by
  induction a generalizing b c with
  | nil =>
    cases b with
    | nil => exact hbc
    | cons y ys =>
      cases c with
      | nil => simp [keyCmp] at hbc
      | cons z zs => rfl
  | cons x xs ih =>
    cases b with
    | nil => simp [keyCmp] at hab
    | cons y ys =>
      cases c with
      | nil => simp [keyCmp] at hbc
      | cons z zs =>
        simp only [keyCmp] at hab hbc ⊢
        by_cases hxy : x < y
        · by_cases hyz : y < z
          · rw [if_pos (by omega : x < z)]
          · rw [if_neg hyz] at hbc
            by_cases hzy : z < y
            · rw [if_pos hzy] at hbc
              cases hbc
            · rw [if_neg hzy] at hbc
              have hyzE : y = z := by omega
              subst hyzE
              rw [if_pos hxy]
        · rw [if_neg hxy] at hab
          by_cases hyx : y < x
          · rw [if_pos hyx] at hab
            cases hab
          · rw [if_neg hyx] at hab
            have hxyE : x = y := by omega
            subst hxyE
            by_cases hxz : x < z
            · rw [if_pos hxz]
            · rw [if_neg hxz] at hbc ⊢
              by_cases hzx : z < x
              · rw [if_pos hzx] at hbc
                cases hbc
              · rw [if_neg hzx] at hbc ⊢
                exact ih hab hbc

theorem getD_append_length {xs : List Nat} {y : Nat} {ys : List Nat} {d : Nat} :
    (xs ++ y :: ys).getD xs.length d = y := by
  induction xs with
  | nil => rfl
  | cons a as ih => simpa using ih

theorem getD_take_of_lt {l : List Nat} {n i d : Nat} (h : i < n) :
    (l.take n).getD i d = l.getD i d := by
  induction l generalizing n i with
  | nil => simp
  | cons a as ih =>
    cases n with
    | zero => omega
    | succ m =>
      cases i with
      | zero => simp
      | succ j =>
        simp only [List.take, List.getD_cons_succ]
        exact ih (by omega)

theorem take_len_append {xs ys : List Nat} {n : Nat} (h : xs.length = n) :
    (xs ++ ys).take n = xs := by
  subst h
  exact List.take_left xs ys

theorem drop_len_append {xs ys : List Nat} {n : Nat} (h : xs.length = n) :
    (xs ++ ys).drop n = ys := by
  subst h
  exact List.drop_left xs ys

theorem getD_len_append {xs : List Nat} {y : Nat} {ys : List Nat} {n d : Nat}
    (h : xs.length = n) : (xs ++ y :: ys).getD n d = y := by
  subst h
  exact getD_append_length

theorem toLeBytes_length (w n : Nat) : (toLeBytes w n).length = w := by
  induction w generalizing n with
  | zero => rfl
  | succ m ih => simp [toLeBytes, ih]

theorem fromLe_toLe (w n : Nat) : fromLeBytes (toLeBytes w n) = n % 256 ^ w := by
  induction w generalizing n with
  | zero => simp [toLeBytes, fromLeBytes, Nat.mod_one]
  | succ m ih =>
    simp only [toLeBytes, fromLeBytes, ih]
    rw [Nat.mod_mod_of_dvd n dvd_rfl, pow_succ' 256 m]
    exact Nat.mod_mul.symm

theorem fromLe_lt (bs : List Nat) : fromLeBytes bs < 256 ^ bs.length := by
  induction bs with
  | nil => simp [fromLeBytes]
  | cons b rest ih =>
    simp only [fromLeBytes, List.length_cons]
    have hb : b % 256 < 256 := Nat.mod_lt _ (by norm_num)
    have h3 : 256 * (1 + fromLeBytes rest) ≤ 256 * 256 ^ rest.length :=
      Nat.mul_le_mul_left 256 (by omega)
    have h4 : (256 : Nat) * 256 ^ rest.length = 256 ^ (rest.length + 1) :=
      (pow_succ' 256 rest.length).symm
    omega

theorem header_length (a b f : Nat) :
    (toLeBytes 8 a ++ [f] ++ toLeBytes 8 b).length = 17 := by
  simp [toLeBytes_length]

theorem header_take8 (a b f : Nat) :
    (toLeBytes 8 a ++ [f] ++ toLeBytes 8 b).take 8 = toLeBytes 8 a := by
  rw [List.append_assoc]
  exact take_len_append (toLeBytes_length 8 a)

theorem header_getD8 (a b f : Nat) :
    (toLeBytes 8 a ++ [f] ++ toLeBytes 8 b).getD 8 0 = f := by
  rw [List.append_assoc, List.singleton_append]
  exact getD_len_append (toLeBytes_length 8 a)

theorem header_drop9 (a b f : Nat) :
    (toLeBytes 8 a ++ [f] ++ toLeBytes 8 b).drop 9 = toLeBytes 8 b := by
  exact drop_len_append (by simp [toLeBytes_length])

theorem readExact_append {n : Nat} {xs ys : List Nat} (h : xs.length = n) :
    readExact n (xs ++ ys) = some (xs, ys) := by
  subst h
  simp [readExact, List.take_left, List.drop_left]

theorem pow_256_8 : (256 : Nat) ^ 8 = 2 ^ 64 := by norm_num

theorem pow_256_16 : (256 : Nat) ^ 16 = 2 ^ 128 := by norm_num

theorem parseEntry_set (k v : List Nat) (ts : Nat) (rest : List Nat)
    (hk : k.length < 2 ^ 64) (hv : v.length < 2 ^ 64) (hts : ts < 2 ^ 128) :
    parseEntry (Storage.setRecord k v false ts ++ rest)
      = some (⟨k, some v, ts, false⟩, rest) := by
  have hk' : k.length < 256 ^ 8 := by rw [pow_256_8]; exact hk
  have hv' : v.length < 256 ^ 8 := by rw [pow_256_8]; exact hv
  have hts' : ts < 256 ^ 16 := by rw [pow_256_16]; exact hts
  have hH : Storage.setRecord k v false ts ++ rest
      = (toLeBytes 8 k.length ++ [(0 : Nat)] ++ toLeBytes 8 v.length)
        ++ (k ++ (v ++ (toLeBytes 16 ts ++ rest))) := by
    simp [Storage.setRecord, List.append_assoc]
  rw [hH]
  unfold parseEntry
  rw [readExact_append (header_length k.length v.length 0)]
  simp only [header_take8, header_getD8, header_drop9, fromLe_toLe,
    Nat.mod_eq_of_lt hk', Nat.mod_eq_of_lt hv', Nat.mod_eq_of_lt hts',
    readExact_append rfl, readExact_append (toLeBytes_length 16 ts),
    bne_self_eq_false, if_false, ite_false, Bool.false_eq_true]

theorem parseEntry_del (k : List Nat) (ts : Nat) (rest : List Nat)
    (hk : k.length < 2 ^ 64) (hts : ts < 2 ^ 128) :
    parseEntry (Storage.deleteRecord 8 k ts ++ rest)
      = some (⟨k, none, ts, true⟩, rest) := by
  have hk' : k.length < 256 ^ 8 := by rw [pow_256_8]; exact hk
  have hts' : ts < 256 ^ 16 := by rw [pow_256_16]; exact hts
  have hH : Storage.deleteRecord 8 k ts ++ rest
      = (toLeBytes 8 k.length ++ [(1 : Nat)] ++ toLeBytes 8 0)
        ++ (k ++ (toLeBytes 16 ts ++ rest)) := by
    simp [Storage.deleteRecord, List.append_assoc]
  rw [hH]
  unfold parseEntry
  rw [readExact_append (header_length k.length 0 1)]
  simp only [header_take8, header_getD8, header_drop9, fromLe_toLe,
    Nat.mod_eq_of_lt hk', Nat.mod_eq_of_lt hts',
    readExact_append rfl, readExact_append (toLeBytes_length 16 ts)]
  norm_num

theorem parseEntry_encode {e : Entry} (he : EntryWf e) (rest : List Nat) :
    parseEntry (encodeEntry e ++ rest) = some (e, rest) := by
  obtain ⟨hk, hts, hval⟩ := he
  rcases e with ⟨k, val, ts, d⟩
  rcases val with - | v
  · have hd : d = true := hval
    subst hd
    rw [show encodeEntry ⟨k, none, ts, true⟩ = Storage.deleteRecord 8 k ts from rfl]
    exact parseEntry_del k ts rest hk hts
  · obtain ⟨hd, hv⟩ := hval
    have hd' : d = false := hd
    subst hd'
    rw [show encodeEntry ⟨k, some v, ts, false⟩ = Storage.setRecord k v false ts from rfl]
    exact parseEntry_set k v ts rest hk hv hts

theorem parseAll_none {bs : List Nat} (h : parseEntry bs = none) : parseAll bs = [] := by
  unfold parseAll
  split
  · rfl
  · rename_i e rest heq
    rw [h] at heq
    cases heq

theorem parseAll_cons {bs : List Nat} {e : Entry} {r : List Nat}
    (h : parseEntry bs = some (e, r)) : parseAll bs = e :: parseAll r := by
  unfold parseAll
  split
  · rename_i heq
    rw [h] at heq
    cases heq
  · rename_i e2 rest heq
    rw [h] at heq
    injection heq with heq
    injection heq with h1 h2
    subst h1
    subst h2
    conv_lhs => unfold parseAll

theorem parseAll_nil : parseAll [] = [] := by
  apply parseAll_none
  unfold parseEntry readExact
  norm_num

theorem readExact_none {n : Nat} {bs : List Nat} (h : bs.length < n) :
    readExact n bs = none := by
  unfold readExact
  rw [if_neg (by omega)]

theorem readExact_eq {n : Nat} {bs xs rest : List Nat}
    (h : readExact n bs = some (xs, rest)) :
    xs = bs.take n ∧ rest = bs.drop n ∧ n ≤ bs.length := by
  unfold readExact at h
  split at h
  · injection h with h
    injection h with h1 h2
    exact ⟨h1.symm, h2.symm, by omega⟩
  · cases h

theorem take_append_le {xs ys : List Nat} {n : Nat} (h : n ≤ xs.length) :
    (xs ++ ys).take n = xs.take n := by
  induction xs generalizing n with
  | nil =>
    have : n = 0 := by simpa using h
    simp [this]
  | cons a as ih =>
    cases n with
    | zero => simp
    | succ m =>
      simp only [List.cons_append, List.take_succ_cons]
      rw [ih (by simpa using h)]

theorem getD_append_lt {xs ys : List Nat} {i d : Nat} (h : i < xs.length) :
    (xs ++ ys).getD i d = xs.getD i d := by
  induction xs generalizing i with
  | nil => simp at h
  | cons a as ih =>
    cases i with
    | zero => simp
    | succ j =>
      simp only [List.cons_append, List.getD_cons_succ]
      exact ih (by simpa using h)

/-- Every entry the segment iterator produces is in range: the key length
and value length were read from 8-byte fields, the timestamp from a 16-byte
field, and the value is present exactly when the record is live. -/
theorem parseEntry_shape {bs : List Nat} {e : Entry} {r : List Nat}
    (h : parseEntry bs = some (e, r)) :
    EntryWf e ∧
    e.key.length = fromLeBytes (bs.take 8) ∧
    e.deleted = (bs.getD 8 0 != 0) ∧
    (e.deleted = false → (e.value.getD []).length = fromLeBytes ((bs.take 17).drop 9)) ∧
    bs.length = 33 + e.key.length + (e.value.getD []).length + r.length := by
  unfold parseEntry at h
  cases h17 : readExact 17 bs with
  | none => rw [h17] at h; cases h
  | some p =>
    obtain ⟨header, r1⟩ := p
    rw [h17] at h
    simp only at h
    obtain ⟨hhdr, hr1d, hb17⟩ := readExact_eq h17
    have hhlen : header.length = 17 := (readExact_length h17).1
    have hr1 : r1.length + 17 = bs.length := (readExact_length h17).2
    have htake8 : header.take 8 = bs.take 8 := by
      rw [hhdr, List.take_take]
      norm_num
    have hgetD8 : header.getD 8 0 = bs.getD 8 0 := by
      rw [hhdr]
      exact getD_take_of_lt (by norm_num)
    cases hk : readExact (fromLeBytes (header.take 8)) r1 with
    | none => rw [hk] at h; cases h
    | some q =>
      obtain ⟨key, r2⟩ := q
      rw [hk] at h
      obtain ⟨hklen, hr2⟩ := readExact_length hk
      simp only at h
      have hkb : key.length < 2 ^ 64 := by
        rw [hklen, ← pow_256_8]
        calc fromLeBytes (header.take 8) < 256 ^ (header.take 8).length := fromLe_lt _
        _ ≤ 256 ^ 8 := by
              apply Nat.pow_le_pow_right (by norm_num)
              simp [List.length_take]
      split at h
      · rename_i hdel
        cases hts : readExact 16 r2 with
        | none => rw [hts] at h; cases h
        | some t =>
          obtain ⟨tsb, r4⟩ := t
          rw [hts] at h
          obtain ⟨htslen, hr4⟩ := readExact_length hts
          injection h with h
          injection h with h1 h2
          subst h1
          subst h2
          refine ⟨⟨hkb, ?_, rfl⟩, ?_, ?_, ?_, ?_⟩
          · rw [← pow_256_16]
            calc fromLeBytes tsb < 256 ^ tsb.length := fromLe_lt _
            _ = 256 ^ 16 := by rw [htslen]
          · simp only
            rw [hklen, htake8]
          · simp only
            rw [← hgetD8]
            exact hdel.symm
          · intro hfalse
            simp at hfalse
          · simp only [Option.getD_none, List.length_nil]
            rw [hklen]
            omega
      · rename_i hdel
        cases hv : readExact (fromLeBytes (header.drop 9)) r2 with
        | none => rw [hv] at h; cases h
        | some v =>
          obtain ⟨value, r3⟩ := v
          rw [hv] at h
          obtain ⟨hvlen, hr3⟩ := readExact_length hv
          simp only at h
          have hvb : value.length < 2 ^ 64 := by
            rw [hvlen, ← pow_256_8]
            calc fromLeBytes (header.drop 9) < 256 ^ (header.drop 9).length := fromLe_lt _
            _ ≤ 256 ^ 8 := by
                  apply Nat.pow_le_pow_right (by norm_num)
                  simp [List.length_drop, hhlen]
          cases hts : readExact 16 r3 with
          | none => rw [hts] at h; cases h
          | some t =>
            obtain ⟨tsb, r4⟩ := t
            rw [hts] at h
            obtain ⟨htslen, hr4⟩ := readExact_length hts
            injection h with h
            injection h with h1 h2
            subst h1
            subst h2
            have hdelF : (header.getD 8 0 != 0) = false := by
              simp only [bne_iff_ne, ne_eq] at hdel ⊢
              simp at hdel
              simp [hdel]
            refine ⟨⟨hkb, ?_, rfl, hvb⟩, ?_, ?_, ?_, ?_⟩
            · rw [← pow_256_16]
              calc fromLeBytes tsb < 256 ^ tsb.length := fromLe_lt _
              _ = 256 ^ 16 := by rw [htslen]
            · simp only
              rw [hklen, htake8]
            · simp only
              rw [← hgetD8, hdelF]
            · intro hlive
              simp only [Option.getD_some]
              rw [hvlen, hhdr]
            · simp only [Option.getD_some]
              rw [hklen, hvlen]
              omega

theorem parseAll_segment (rs : List Entry) (hwf : ∀ e ∈ rs, EntryWf e) (tail : List Nat) :
    parseAll (segmentOf rs ++ tail) = rs ++ parseAll tail := by
  induction rs with
  | nil => simp [segmentOf]
  | cons e es ih =>
    have he := hwf e (by simp)
    have hes : ∀ x ∈ es, EntryWf x := fun x hx => hwf x (by simp [hx])
    have hseg : segmentOf (e :: es) ++ tail = encodeEntry e ++ (segmentOf es ++ tail) := by
      simp [segmentOf]
    rw [hseg, parseAll_cons (parseEntry_encode he _), ih hes]
    rfl

theorem parseAll_wf_aux (n : Nat) :
    ∀ bs : List Nat, bs.length ≤ n → ∀ e ∈ parseAll bs, EntryWf e := by
  induction n with
  | zero =>
    intro bs hb e he
    have hnil : bs = [] := List.length_eq_zero.mp (by omega)
    subst hnil
    rw [parseAll_nil] at he
    cases he
  | succ m ih =>
    intro bs hb e he
    cases hp : parseEntry bs with
    | none =>
      rw [parseAll_none hp] at he
      cases he
    | some p =>
      obtain ⟨e2, r⟩ := p
      rw [parseAll_cons hp] at he
      rcases List.mem_cons.mp he with h | h
      · subst h
        exact (parseEntry_shape hp).1
      · exact ih r (by have := parseEntry_rest_length hp; omega) e h

/-- Every entry the segment iterator yields is well-formed. -/
theorem parseAll_wf {bs : List Nat} : ∀ e ∈ parseAll bs, EntryWf e :=
  parseAll_wf_aux bs.length bs le_rfl

theorem entryWf_ok {e : Entry} (he : EntryWf e) : EntryOk e := by
  rcases e with ⟨k, val, ts, d⟩
  rcases val with - | v
  · exact he.2.2
  · exact he.2.2.1

theorem wf_deleted_value_none {e : Entry} (he : EntryWf e) (hd : e.deleted = true) :
    e.value = none := by
  rcases e with ⟨k, val, ts, d⟩
  rcases val with - | v
  · rfl
  · obtain ⟨hd2, -⟩ := he.2.2
    have hdt : d = true := hd
    rw [hdt] at hd2
    cases hd2

theorem encode_live_decomp (k v : List Nat) (ts : Nat) :
    Storage.setRecord k v false ts
      = (toLeBytes 8 k.length ++ [(0 : Nat)] ++ toLeBytes 8 v.length)
        ++ (k ++ (v ++ toLeBytes 16 ts)) := by
  simp [Storage.setRecord, List.append_assoc]

theorem encode_del_decomp (k : List Nat) (ts : Nat) :
    Storage.deleteRecord 8 k ts
      = (toLeBytes 8 k.length ++ [(1 : Nat)] ++ toLeBytes 8 0)
        ++ (k ++ toLeBytes 16 ts) := by
  simp [Storage.deleteRecord, List.append_assoc]

theorem encode_live_length (k v : List Nat) (ts : Nat) :
    (Storage.setRecord k v false ts).length = 33 + k.length + v.length := by
  simp [Storage.setRecord, toLeBytes_length]
  omega

theorem encode_del_length (k : List Nat) (ts : Nat) :
    (Storage.deleteRecord 8 k ts).length = 33 + k.length := by
  simp [Storage.deleteRecord, toLeBytes_length]
  omega

/-- A strict leading slice of one encoded record parses to nothing: the
header announces more bytes than the slice holds, so one of the iterator's
reads hits end-of-file and the truncated record is dropped. -/
theorem parseEntry_take_encode {e : Entry} (he : EntryWf e) {n : Nat}
    (hn : n < (encodeEntry e).length) :
    parseEntry ((encodeEntry e).take n) = none := by
  have hlen : ((encodeEntry e).take n).length = n := by
    rw [List.length_take]
    omega
  by_cases h17 : n < 17
  · unfold parseEntry
    rw [readExact_none (by omega)]
  · cases hp : parseEntry ((encodeEntry e).take n) with
    | none => rfl
    | some p =>
      obtain ⟨q, r⟩ := p
      exfalso
      obtain ⟨hqwf, hqkey, hqdel, hqval, hcons⟩ := parseEntry_shape hp
      rw [hlen] at hcons
      obtain ⟨hkb, hts, hval⟩ := he
      rcases e with ⟨k, val, ts, d⟩
      have hk256 : k.length < 256 ^ 8 := by rw [pow_256_8]; exact hkb
      rcases val with - | v
      · have hd : d = true := hval
        subst hd
        have hA : encodeEntry ⟨k, none, ts, true⟩
            = (toLeBytes 8 k.length ++ [(1 : Nat)] ++ toLeBytes 8 0)
              ++ (k ++ toLeBytes 16 ts) :=
          encode_del_decomp k ts
        have hAlen : (encodeEntry ⟨k, none, ts, true⟩).length = 33 + k.length :=
          encode_del_length k ts
        have hkeyq : q.key.length = k.length := by
          rw [hqkey, List.take_take, min_eq_left (by omega), hA,
            take_append_le (by rw [header_length]; omega), header_take8,
            fromLe_toLe, Nat.mod_eq_of_lt hk256]
        have hdelq : q.deleted = true := by
          rw [hqdel, getD_take_of_lt (by omega), hA,
            getD_append_lt (by rw [header_length]; omega), header_getD8]
          norm_num
        have hvnone : q.value = none := wf_deleted_value_none hqwf hdelq
        rw [hvnone] at hcons
        simp only [Option.getD_none, List.length_nil] at hcons
        omega
      · obtain ⟨hd, hvb⟩ := hval
        have hd' : d = false := hd
        subst hd'
        have hv256 : v.length < 256 ^ 8 := by rw [pow_256_8]; exact hvb
        have hA : encodeEntry ⟨k, some v, ts, false⟩
            = (toLeBytes 8 k.length ++ [(0 : Nat)] ++ toLeBytes 8 v.length)
              ++ (k ++ (v ++ toLeBytes 16 ts)) :=
          encode_live_decomp k v ts
        have hAlen : (encodeEntry ⟨k, some v, ts, false⟩).length
            = 33 + k.length + v.length :=
          encode_live_length k v ts
        have hkeyq : q.key.length = k.length := by
          rw [hqkey, List.take_take, min_eq_left (by omega), hA,
            take_append_le (by rw [header_length]; omega), header_take8,
            fromLe_toLe, Nat.mod_eq_of_lt hk256]
        have hdelq : q.deleted = false := by
          rw [hqdel, getD_take_of_lt (by omega), hA,
            getD_append_lt (by rw [header_length]; omega), header_getD8]
          rfl
        have hvq : (q.value.getD []).length = v.length := by
          rw [hqval hdelq, List.take_take, min_eq_left (by omega), hA,
            take_len_append (header_length k.length v.length 0), header_drop9,
            fromLe_toLe, Nat.mod_eq_of_lt hv256]
        omega

theorem segmentOf_append_last {rs : List Entry} (hne : rs ≠ []) :
    segmentOf rs = segmentOf rs.dropLast ++ encodeEntry (rs.getLast hne) := by
  conv_lhs => rw [← List.dropLast_append_getLast hne]
  simp [segmentOf]

theorem take_append_add {xs ys : List Nat} (t : Nat) :
    (xs ++ ys).take (xs.length + t) = xs ++ ys.take t := by
  induction xs with
  | nil => simp
  | cons a as ih =>
    simp only [List.cons_append, List.length_cons]
    rw [Nat.succ_add, List.take_succ_cons, ih]

/-- Removing `m` trailing bytes, `m` at most the final record's length,
cuts the file at the prior-records boundary plus a leading slice of the
final record. -/
theorem truncTail_segment {rs : List Entry} (hne : rs ≠ []) {m : Nat}
    (hm : m ≤ (encodeEntry (rs.getLast hne)).length) :
    truncTail (segmentOf rs) m
      = segmentOf rs.dropLast
        ++ (encodeEntry (rs.getLast hne)).take
            ((encodeEntry (rs.getLast hne)).length - m) := by
  rw [truncTail, segmentOf_append_last hne, List.length_append]
  have harith : (segmentOf rs.dropLast).length + (encodeEntry (rs.getLast hne)).length - m
      = (segmentOf rs.dropLast).length + ((encodeEntry (rs.getLast hne)).length - m) := by
    omega
  rw [harith, take_append_add]

/-- Iterating a segment whose last `m` bytes were removed (`0 < m` strictly
inside the final record) yields exactly the records before the final one. -/
theorem parseAll_truncated (rs : List Entry) (hwf : ∀ e ∈ rs, EntryWf e) (hne : rs ≠ [])
    {m : Nat} (hm0 : 0 < m) (hm : m < (encodeEntry (rs.getLast hne)).length) :
    parseAll (truncTail (segmentOf rs) m) = rs.dropLast := by
  rw [truncTail_segment hne (le_of_lt hm)]
  have hwfd : ∀ e ∈ rs.dropLast, EntryWf e := by
    intro e hemem
    exact hwf e (List.dropLast_subset rs hemem)
  rw [parseAll_segment _ hwfd]
  rw [parseAll_none (parseEntry_take_encode (hwf _ (List.getLast_mem hne)) (by omega))]
  exact List.append_nil _

theorem setGo_mem {key value : List Nat} {ts : Nat} {l : List Entry} {s : Nat} {x : Entry}
    (hx : x ∈ (setGo key value ts l s).1) :
    x ∈ l ∨ x = ⟨key, some value, ts, false⟩ := by
  induction l generalizing s with
  | nil =>
    simp only [setGo, List.mem_singleton] at hx
    exact Or.inr hx
  | cons a as ih =>
    simp only [setGo] at hx
    cases hc : keyCmp key a.key with
    | lt =>
      rw [hc] at hx
      simp only [List.mem_cons] at hx
      rcases hx with h | h | h
      · exact Or.inr h
      · exact Or.inl (by simp [h])
      · exact Or.inl (by simp [h])
    | eq =>
      rw [hc] at hx
      cases hav : a.value with
      | some oldv =>
        rw [hav] at hx
        simp only [List.mem_cons] at hx
        rcases hx with h | h
        · exact Or.inr h
        · exact Or.inl (by simp [h])
      | none =>
        rw [hav] at hx
        simp only [List.mem_cons] at hx
        rcases hx with h | h
        · exact Or.inr h
        · exact Or.inl (by simp [h])
    | gt =>
      rw [hc] at hx
      simp only [List.mem_cons] at hx
      rcases hx with h | h
      · exact Or.inl (by simp [h])
      · rcases ih h with h2 | h2
        · exact Or.inl (by simp [h2])
        · exact Or.inr h2

theorem delGo_mem {key : List Nat} {ts : Nat} {l : List Entry} {s : Nat} {x : Entry}
    (hx : x ∈ (delGo key ts l s).1) :
    x ∈ l ∨ x = ⟨key, none, ts, true⟩ := by
  induction l generalizing s with
  | nil =>
    simp only [delGo, List.mem_singleton] at hx
    exact Or.inr hx
  | cons a as ih =>
    simp only [delGo] at hx
    cases hc : keyCmp key a.key with
    | lt =>
      rw [hc] at hx
      simp only [List.mem_cons] at hx
      rcases hx with h | h | h
      · exact Or.inr h
      · exact Or.inl (by simp [h])
      · exact Or.inl (by simp [h])
    | eq =>
      rw [hc] at hx
      cases hav : a.value with
      | some oldv =>
        rw [hav] at hx
        simp only [List.mem_cons] at hx
        rcases hx with h | h
        · exact Or.inr h
        · exact Or.inl (by simp [h])
      | none =>
        rw [hav] at hx
        simp only [List.mem_cons] at hx
        rcases hx with h | h
        · exact Or.inr h
        · exact Or.inl (by simp [h])
    | gt =>
      rw [hc] at hx
      simp only [List.mem_cons] at hx
      rcases hx with h | h
      · exact Or.inl (by simp [h])
      · rcases ih h with h2 | h2
        · exact Or.inl (by simp [h2])
        · exact Or.inr h2

theorem setGo_all {P : Entry → Prop} {key value : List Nat} {ts : Nat}
    {l : List Entry} {s : Nat}
    (hl : ∀ x ∈ l, P x) (hnew : P ⟨key, some value, ts, false⟩) :
    ∀ x ∈ (setGo key value ts l s).1, P x := by
  intro x hx
  rcases setGo_mem hx with h | h
  · exact hl x h
  · rw [h]
    exact hnew

theorem delGo_all {P : Entry → Prop} {key : List Nat} {ts : Nat}
    {l : List Entry} {s : Nat}
    (hl : ∀ x ∈ l, P x) (hnew : P ⟨key, none, ts, true⟩) :
    ∀ x ∈ (delGo key ts l s).1, P x := by
  intro x hx
  rcases delGo_mem hx with h | h
  · exact hl x h
  · rw [h]
    exact hnew

theorem setGo_sorted {key value : List Nat} {ts : Nat} {l : List Entry} {s : Nat}
    (hs : SortedEnts l) : SortedEnts (setGo key value ts l s).1 := by
  induction l generalizing s with
  | nil =>
    simp only [setGo]
    exact List.pairwise_singleton _ _
  | cons a as ih =>
    obtain ⟨ha, has⟩ := List.pairwise_cons.mp hs
    simp only [setGo]
    cases hc : keyCmp key a.key with
    | lt =>
      apply List.pairwise_cons.mpr
      constructor
      · intro y hy
        rcases List.mem_cons.mp hy with h | h
        · rw [h]
          exact hc
        · exact keyCmp_lt_trans hc (ha y h)
      · exact List.pairwise_cons.mpr ⟨ha, has⟩
    | eq =>
      have hk : key = a.key := keyCmp_eq_iff.mp hc
      cases hav : a.value with
      | some oldv =>
        apply List.pairwise_cons.mpr
        refine ⟨?_, has⟩
        intro y hy
        simp only
        rw [hk]
        exact ha y hy
      | none =>
        apply List.pairwise_cons.mpr
        refine ⟨?_, has⟩
        intro y hy
        simp only
        rw [hk]
        exact ha y hy
    | gt =>
      apply List.pairwise_cons.mpr
      constructor
      · intro y hy
        rcases setGo_mem hy with h | h
        · exact ha y h
        · rw [h]
          exact keyCmp_gt_iff_lt.mp hc
      · exact ih has

theorem delGo_sorted {key : List Nat} {ts : Nat} {l : List Entry} {s : Nat}
    (hs : SortedEnts l) : SortedEnts (delGo key ts l s).1 := by
  induction l generalizing s with
  | nil =>
    simp only [delGo]
    exact List.pairwise_singleton _ _
  | cons a as ih =>
    obtain ⟨ha, has⟩ := List.pairwise_cons.mp hs
    simp only [delGo]
    cases hc : keyCmp key a.key with
    | lt =>
      apply List.pairwise_cons.mpr
      constructor
      · intro y hy
        rcases List.mem_cons.mp hy with h | h
        · rw [h]
          exact hc
        · exact keyCmp_lt_trans hc (ha y h)
      · exact List.pairwise_cons.mpr ⟨ha, has⟩
    | eq =>
      have hk : key = a.key := keyCmp_eq_iff.mp hc
      cases hav : a.value with
      | some oldv =>
        apply List.pairwise_cons.mpr
        refine ⟨?_, has⟩
        intro y hy
        simp only
        rw [hk]
        exact ha y hy
      | none =>
        apply List.pairwise_cons.mpr
        refine ⟨?_, has⟩
        intro y hy
        simp only
        rw [hk]
        exact ha y hy
    | gt =>
      apply List.pairwise_cons.mpr
      constructor
      · intro y hy
        rcases delGo_mem hy with h | h
        · exact ha y h
        · rw [h]
          exact keyCmp_gt_iff_lt.mp hc
      · exact ih has

theorem charge_live (key value : List Nat) (ts : Nat) :
    charge ⟨key, some value, ts, false⟩ = key.length + value.length + 17 := by
  simp [charge]

theorem charge_tomb (key : List Nat) (ts : Nat) :
    charge ⟨key, none, ts, true⟩ = key.length + 17 := by
  simp [charge]

theorem setGo_size {key value : List Nat} {ts : Nat} {l : List Entry} {s : Nat}
    (hok : ∀ x ∈ l, EntryOk x) (hs : (l.map charge).sum ≤ s) :
    (setGo key value ts l s).2 + (l.map charge).sum
      = s + (((setGo key value ts l s).1).map charge).sum := by
  induction l generalizing s with
  | nil =>
    simp only [setGo, List.map_nil, List.sum_nil, List.map_cons, List.sum_cons]
    rw [charge_live]
    omega
  | cons a as ih =>
    have hoka : EntryOk a := hok a (by simp)
    have hokas : ∀ x ∈ as, EntryOk x := fun x hx => hok x (by simp [hx])
    simp only [List.map_cons, List.sum_cons] at hs ⊢
    simp only [setGo]
    cases hc : keyCmp key a.key with
    | lt =>
      simp only [List.map_cons, List.sum_cons]
      rw [charge_live]
      omega
    | eq =>
      have hk : key = a.key := keyCmp_eq_iff.mp hc
      cases hav : a.value with
      | some oldv =>
        have hdel : a.deleted = false := by
          have := hoka
          unfold EntryOk at this
          rw [hav] at this
          exact this
        have hca : charge a = a.key.length + oldv.length + 17 := by
          unfold charge
          rw [hav, hdel]
          simp
        simp only [List.map_cons, List.sum_cons]
        rw [charge_live, hca, hk]
        omega
      | none =>
        have hdel : a.deleted = true := by
          have := hoka
          unfold EntryOk at this
          rw [hav] at this
          exact this
        have hca : charge a = a.key.length + 17 := by
          unfold charge
          rw [hav, hdel]
          simp
        simp only [List.map_cons, List.sum_cons]
        rw [charge_live, hca, hk]
        omega
    | gt =>
      simp only [List.map_cons, List.sum_cons]
      have := ih hokas (s := s) (by omega)
      omega

theorem delGo_size {key : List Nat} {ts : Nat} {l : List Entry} {s : Nat}
    (hok : ∀ x ∈ l, EntryOk x) (hs : (l.map charge).sum ≤ s) :
    (delGo key ts l s).2 + (l.map charge).sum
      = s + (((delGo key ts l s).1).map charge).sum := by
  induction l generalizing s with
  | nil =>
    simp only [delGo, List.map_nil, List.sum_nil, List.map_cons, List.sum_cons]
    rw [charge_tomb]
    omega
  | cons a as ih =>
    have hoka : EntryOk a := hok a (by simp)
    have hokas : ∀ x ∈ as, EntryOk x := fun x hx => hok x (by simp [hx])
    simp only [List.map_cons, List.sum_cons] at hs ⊢
    simp only [delGo]
    cases hc : keyCmp key a.key with
    | lt =>
      simp only [List.map_cons, List.sum_cons]
      rw [charge_tomb]
      omega
    | eq =>
      have hk : key = a.key := keyCmp_eq_iff.mp hc
      cases hav : a.value with
      | some oldv =>
        have hdel : a.deleted = false := by
          have := hoka
          unfold EntryOk at this
          rw [hav] at this
          exact this
        have hca : charge a = a.key.length + oldv.length + 17 := by
          unfold charge
          rw [hav, hdel]
          simp
        simp only [List.map_cons, List.sum_cons]
        rw [charge_tomb, hca, hk]
        omega
      | none =>
        have hdel : a.deleted = true := by
          have := hoka
          unfold EntryOk at this
          rw [hav] at this
          exact this
        have hca : charge a = a.key.length + 17 := by
          unfold charge
          rw [hav, hdel]
          simp
        simp only [List.map_cons, List.sum_cons]
        rw [charge_tomb, hca, hk]
    | gt =>
      simp only [List.map_cons, List.sum_cons]
      have := ih hokas (s := s) (by omega)
      omega

theorem getGo_setGo_self {key value : List Nat} {ts : Nat} {l : List Entry} {s : Nat} :
    getGo key (setGo key value ts l s).1 = some ⟨key, some value, ts, false⟩ := by
  induction l generalizing s with
  | nil =>
    simp only [setGo, getGo, keyCmp_self]
  | cons a as ih =>
    simp only [setGo]
    cases hc : keyCmp key a.key with
    | lt => simp only [getGo, keyCmp_self]
    | eq =>
      cases hav : a.value with
      | some oldv => simp only [getGo, keyCmp_self]
      | none => simp only [getGo, keyCmp_self]
    | gt =>
      simp only [getGo, hc]
      exact ih

theorem getGo_delGo_self {key : List Nat} {ts : Nat} {l : List Entry} {s : Nat} :
    getGo key (delGo key ts l s).1 = some ⟨key, none, ts, true⟩ := by
  induction l generalizing s with
  | nil =>
    simp only [delGo, getGo, keyCmp_self]
  | cons a as ih =>
    simp only [delGo]
    cases hc : keyCmp key a.key with
    | lt => simp only [getGo, keyCmp_self]
    | eq =>
      cases hav : a.value with
      | some oldv => simp only [getGo, keyCmp_self]
      | none => simp only [getGo, keyCmp_self]
    | gt =>
      simp only [getGo, hc]
      exact ih

theorem getGo_setGo_ne {key value : List Nat} {ts : Nat} {l : List Entry} {s : Nat}
    {k2 : List Nat} (hne : k2 ≠ key) :
    getGo k2 (setGo key value ts l s).1 = getGo k2 l := by
  have hcm : keyCmp k2 key ≠ .eq := fun h => hne (keyCmp_eq_iff.mp h)
  induction l generalizing s with
  | nil =>
    simp only [setGo, getGo]
    cases hc : keyCmp k2 key with
    | lt => rfl
    | eq => exact absurd hc hcm
    | gt => rfl
  | cons a as ih =>
    simp only [setGo]
    cases hc : keyCmp key a.key with
    | lt =>
      simp only [getGo]
      cases hc2 : keyCmp k2 key with
      | eq => exact absurd hc2 hcm
      | lt =>
        have : keyCmp k2 a.key = .lt := keyCmp_lt_trans hc2 hc
        simp only [getGo, this]
      | gt => rfl
    | eq =>
      have hk : key = a.key := keyCmp_eq_iff.mp hc
      cases hav : a.value with
      | some oldv =>
        simp only [getGo]
        cases hc2 : keyCmp k2 key with
        | eq => exact absurd hc2 hcm
        | lt =>
          rw [← hk, hc2]
        | gt =>
          rw [← hk, hc2]
      | none =>
        simp only [getGo]
        cases hc2 : keyCmp k2 key with
        | eq => exact absurd hc2 hcm
        | lt =>
          rw [← hk, hc2]
        | gt =>
          rw [← hk, hc2]
    | gt =>
      simp only [getGo]
      cases hc2 : keyCmp k2 a.key with
      | lt => rfl
      | eq => rfl
      | gt => exact ih

theorem getGo_delGo_ne {key : List Nat} {ts : Nat} {l : List Entry} {s : Nat}
    {k2 : List Nat} (hne : k2 ≠ key) :
    getGo k2 (delGo key ts l s).1 = getGo k2 l := by
  have hcm : keyCmp k2 key ≠ .eq := fun h => hne (keyCmp_eq_iff.mp h)
  induction l generalizing s with
  | nil =>
    simp only [delGo, getGo]
    cases hc : keyCmp k2 key with
    | lt => rfl
    | eq => exact absurd hc hcm
    | gt => rfl
  | cons a as ih =>
    simp only [delGo]
    cases hc : keyCmp key a.key with
    | lt =>
      simp only [getGo]
      cases hc2 : keyCmp k2 key with
      | eq => exact absurd hc2 hcm
      | lt =>
        have : keyCmp k2 a.key = .lt := keyCmp_lt_trans hc2 hc
        simp only [getGo, this]
      | gt => rfl
    | eq =>
      have hk : key = a.key := keyCmp_eq_iff.mp hc
      cases hav : a.value with
      | some oldv =>
        simp only [getGo]
        cases hc2 : keyCmp k2 key with
        | eq => exact absurd hc2 hcm
        | lt =>
          rw [← hk, hc2]
        | gt =>
          rw [← hk, hc2]
      | none =>
        simp only [getGo]
        cases hc2 : keyCmp k2 key with
        | eq => exact absurd hc2 hcm
        | lt =>
          rw [← hk, hc2]
        | gt =>
          rw [← hk, hc2]
    | gt =>
      simp only [getGo]
      cases hc2 : keyCmp k2 a.key with
      | lt => rfl
      | eq => rfl
      | gt => exact ih

theorem setGo_gt_all {key value : List Nat} {ts : Nat} {l : List Entry} {s : Nat}
    (hgt : ∀ x ∈ l, keyCmp x.key key = .lt) :
    setGo key value ts l s
      = (l ++ [⟨key, some value, ts, false⟩], s + (key.length + value.length + 17)) := by
  induction l generalizing s with
  | nil => rfl
  | cons a as ih =>
    have hc : keyCmp key a.key = .gt := keyCmp_gt_iff_lt.mpr (hgt a (by simp))
    simp only [setGo, hc]
    rw [ih (fun x hx => hgt x (by simp [hx]))]
    rfl

theorem delGo_gt_all {key : List Nat} {ts : Nat} {l : List Entry} {s : Nat}
    (hgt : ∀ x ∈ l, keyCmp x.key key = .lt) :
    delGo key ts l s
      = (l ++ [⟨key, none, ts, true⟩], s + (key.length + 17)) := by
  induction l generalizing s with
  | nil => rfl
  | cons a as ih =>
    have hc : keyCmp key a.key = .gt := keyCmp_gt_iff_lt.mpr (hgt a (by simp))
    simp only [delGo, hc]
    rw [ih (fun x hx => hgt x (by simp [hx]))]
    rfl

theorem get_set_self (mt : MemTable) (k v : List Nat) (ts : Nat) :
    (mt.set_or_insert k v ts).get k = some ⟨k, some v, ts, false⟩ :=
  getGo_setGo_self

theorem get_set_ne (mt : MemTable) (k v : List Nat) (ts : Nat) {k2 : List Nat}
    (h : k2 ≠ k) : (mt.set_or_insert k v ts).get k2 = mt.get k2 :=
  getGo_setGo_ne h

theorem get_del_self (mt : MemTable) (k : List Nat) (ts : Nat) :
    (mt.delete k ts).get k = some ⟨k, none, ts, true⟩ :=
  getGo_delGo_self

theorem get_del_ne (mt : MemTable) (k : List Nat) (ts : Nat) {k2 : List Nat}
    (h : k2 ≠ k) : (mt.delete k ts).get k2 = mt.get k2 :=
  getGo_delGo_ne h

/-- The memtable invariant maintained by every reachable state: the vector
is strictly key-sorted, every entry is well-formed, and the size counter
equals the summed footprint charge. -/
def MtInv (mt : MemTable) : Prop :=
  SortedEnts mt.entities ∧ (∀ e ∈ mt.entities, EntryWf e) ∧
    mt.size = (mt.entities.map charge).sum

theorem mtInv_new : MtInv MemTable.new := by
  refine ⟨List.Pairwise.nil, ?_, rfl⟩
  intro e he
  cases he

theorem mtInv_set {mt : MemTable} (h : MtInv mt) {k v : List Nat} {ts : Nat}
    (hk : k.length < 2 ^ 64) (hv : v.length < 2 ^ 64) (hts : ts < 2 ^ 128) :
    MtInv (mt.set_or_insert k v ts) := by
  obtain ⟨hsort, hwf, hsz⟩ := h
  refine ⟨setGo_sorted hsort, ?_, ?_⟩
  · exact setGo_all hwf ⟨hk, hts, rfl, hv⟩
  · have hok : ∀ x ∈ mt.entities, EntryOk x := fun x hx => entryWf_ok (hwf x hx)
    have := @setGo_size k v ts mt.entities mt.size hok (le_of_eq hsz.symm)
    simp only [MemTable.set_or_insert]
    omega

theorem mtInv_del {mt : MemTable} (h : MtInv mt) {k : List Nat} {ts : Nat}
    (hk : k.length < 2 ^ 64) (hts : ts < 2 ^ 128) :
    MtInv (mt.delete k ts) := by
  obtain ⟨hsort, hwf, hsz⟩ := h
  refine ⟨delGo_sorted hsort, ?_, ?_⟩
  · exact delGo_all hwf ⟨hk, hts, rfl⟩
  · have hok : ∀ x ∈ mt.entities, EntryOk x := fun x hx => entryWf_ok (hwf x hx)
    have := @delGo_size k ts mt.entities mt.size hok (le_of_eq hsz.symm)
    simp only [MemTable.delete]
    omega

/-- The size-accounting invariant alone, for arbitrary (unbounded) keys and
values: value presence matches the tombstone flag and the counter equals the
summed charge. -/
def MtAcc (mt : MemTable) : Prop :=
  (∀ e ∈ mt.entities, EntryOk e) ∧ mt.size = (mt.entities.map charge).sum

theorem mtAcc_new : MtAcc MemTable.new := by
  refine ⟨?_, rfl⟩
  intro e he
  cases he

theorem mtAcc_set {mt : MemTable} (h : MtAcc mt) (k v : List Nat) (ts : Nat) :
    MtAcc (mt.set_or_insert k v ts) := by
  obtain ⟨hok, hsz⟩ := h
  constructor
  · exact setGo_all hok rfl
  · have := @setGo_size k v ts mt.entities mt.size hok (le_of_eq hsz.symm)
    simp only [MemTable.set_or_insert]
    omega

theorem mtAcc_del {mt : MemTable} (h : MtAcc mt) (k : List Nat) (ts : Nat) :
    MtAcc (mt.delete k ts) := by
  obtain ⟨hok, hsz⟩ := h
  constructor
  · exact delGo_all hok rfl
  · have := @delGo_size k ts mt.entities mt.size hok (le_of_eq hsz.symm)
    simp only [MemTable.delete]
    omega

theorem mtAcc_applyMem {mt : MemTable} (h : MtAcc mt) (op : Op) :
    MtAcc (applyMem mt op) := by
  cases op with
  | set k v ts => exact mtAcc_set h k v ts
  | del k ts => exact mtAcc_del h k ts

theorem mtAcc_foldl (ops : List Op) {mt : MemTable} (h : MtAcc mt) :
    MtAcc (ops.foldl applyMem mt) := by
  induction ops generalizing mt with
  | nil => exact h
  | cons op rest ih => exact ih (mtAcc_applyMem h op)

theorem opBytes_encode (op : Op) : opBytes op = encodeEntry (recordOf op) := by
  cases op <;> rfl

theorem recordOf_wf {op : Op} (h : OpWf op) : EntryWf (recordOf op) := by
  cases op with
  | set k v ts => exact ⟨h.1, h.2.2, rfl, h.2.1⟩
  | del k ts => exact ⟨h.1, h.2, rfl⟩

theorem foldl_applyOp (ops : List Op) (db : Db) :
    ops.foldl applyOp db
      = ⟨db.others, db.active ++ (ops.map opBytes).flatten, ops.foldl applyMem db.mem⟩ := by
  induction ops generalizing db with
  | nil => simp
  | cons op rest ih =>
    cases op with
    | set k v ts =>
      simp only [List.foldl_cons, List.map_cons, List.flatten_cons]
      rw [ih]
      simp [applyOp, Db.set, applyMem, opBytes, List.append_assoc]
    | del k ts =>
      simp only [List.foldl_cons, List.map_cons, List.flatten_cons]
      rw [ih]
      simp [applyOp, Db.delete, applyMem, opBytes, List.append_assoc]

theorem runOps_eq (ops : List Op) :
    runOps ops = ⟨[], (ops.map opBytes).flatten, ops.foldl applyMem MemTable.new⟩ := by
  rw [runOps, foldl_applyOp]
  rfl

theorem parseAll_segment_nil (rs : List Entry) (hwf : ∀ e ∈ rs, EntryWf e) :
    parseAll (segmentOf rs) = rs := by
  have h := parseAll_segment rs hwf []
  rw [List.append_nil] at h
  rw [h, parseAll_nil, List.append_nil]

theorem opBytes_flatten_segment (ops : List Op) :
    (ops.map opBytes).flatten = segmentOf (ops.map recordOf) := by
  unfold segmentOf
  rw [List.map_map]
  congr 1
  exact List.map_congr_left (fun op _ => opBytes_encode op)

theorem parseAll_opsBytes (ops : List Op) (h : ∀ op ∈ ops, OpWf op) :
    parseAll ((ops.map opBytes).flatten) = ops.map recordOf := by
  rw [opBytes_flatten_segment]
  apply parseAll_segment_nil
  intro e he
  obtain ⟨op, hop, rfl⟩ := List.mem_map.mp he
  exact recordOf_wf (h op hop)

theorem foldRecover_recordOf (mt : MemTable) (op : Op) :
    foldRecover mt (recordOf op) = some (applyMem mt op) := by
  cases op <;> rfl

theorem foldlM_recover_ops (ops : List Op) (mt : MemTable) :
    (ops.map recordOf).foldlM foldRecover mt = some (ops.foldl applyMem mt) := by
  induction ops generalizing mt with
  | nil => rfl
  | cons op rest ih =>
    rw [List.map_cons, List.foldlM_cons, foldRecover_recordOf]
    show (rest.map recordOf).foldlM foldRecover (applyMem mt op) = _
    rw [List.foldl_cons]
    exact ih (applyMem mt op)

theorem dumpEntry_ok {e : Entry} (he : EntryOk e) : dumpEntry e = some (encodeEntry e) := by
  rcases e with ⟨k, val, ts, d⟩
  rcases val with - | v
  · have hd : d = true := he
    subst hd
    rfl
  · have hd : d = false := he
    subst hd
    rfl

theorem dump_fold (l : List Entry) (acc : List Nat) (h : ∀ e ∈ l, EntryOk e) :
    l.foldlM (fun acc e => (dumpEntry e).map (fun r => acc ++ r)) acc
      = some (acc ++ segmentOf l) := by
  induction l generalizing acc with
  | nil => simp [segmentOf]
  | cons e es ih =>
    rw [List.foldlM_cons, dumpEntry_ok (h e (by simp))]
    show es.foldlM (fun acc e => (dumpEntry e).map (fun r => acc ++ r))
        (acc ++ encodeEntry e) = _
    rw [ih (acc ++ encodeEntry e) (fun x hx => h x (List.mem_cons_of_mem e hx))]
    simp [segmentOf, List.append_assoc]

theorem dumpMem_ok {mt : MemTable} (h : ∀ e ∈ mt.entities, EntryOk e) :
    dumpMem mt = some (segmentOf mt.entities) := by
  unfold dumpMem
  rw [dump_fold mt.entities [] h]
  simp

theorem foldRecover_del (mt : MemTable) (k : List Nat) (ts : Nat) :
    foldRecover mt ⟨k, none, ts, true⟩ = some (mt.delete k ts) := rfl

theorem foldRecover_set (mt : MemTable) (k v : List Nat) (ts : Nat) :
    foldRecover mt ⟨k, some v, ts, false⟩ = some (mt.set_or_insert k v ts) := rfl

theorem foldRecover_wf {mt : MemTable} {e : Entry} (hi : MtInv mt) (he : EntryWf e)
    {mt2 : MemTable} (h : foldRecover mt e = some mt2) : MtInv mt2 := by
  obtain ⟨hk, hts, hval⟩ := he
  rcases e with ⟨k, val, ts, d⟩
  rcases val with - | v
  · have hd : d = true := hval
    subst hd
    rw [foldRecover_del] at h
    injection h with h
    subst h
    exact mtInv_del hi hk hts
  · obtain ⟨hd, hv⟩ := hval
    have hd2 : d = false := hd
    subst hd2
    rw [foldRecover_set] at h
    injection h with h
    subst h
    exact mtInv_set hi hk hv hts

theorem foldlM_recover_inv (es : List Entry) :
    ∀ mt mt2 : MemTable, (∀ e ∈ es, EntryWf e) → MtInv mt →
      es.foldlM foldRecover mt = some mt2 → MtInv mt2 := by
  induction es with
  | nil =>
    intro mt mt2 _ hi h
    injection h with h
    subst h
    exact hi
  | cons e es ih =>
    intro mt mt2 hwf hi h
    rw [List.foldlM_cons] at h
    cases hbind : foldRecover mt e with
    | none =>
      rw [hbind] at h
      cases h
    | some mt3 =>
      rw [hbind] at h
      have h2 : es.foldlM foldRecover mt3 = some mt2 := h
      exact ih mt3 mt2 (fun x hx => hwf x (List.mem_cons_of_mem e hx))
        (foldRecover_wf hi (hwf e (by simp)) hbind) h2

theorem recoverFile_inv {mt : MemTable} {f : List Nat} {mt2 : MemTable}
    (hi : MtInv mt) (h : recoverFile mt f = some mt2) : MtInv mt2 :=
  foldlM_recover_inv (parseAll f) mt mt2 (fun e he => parseAll_wf e he) hi h

theorem foldlM_files_inv (files : List (List Nat)) :
    ∀ mt mt2 : MemTable, MtInv mt →
      files.foldlM recoverFile mt = some mt2 → MtInv mt2 := by
  induction files with
  | nil =>
    intro mt mt2 hi h
    injection h with h
    subst h
    exact hi
  | cons f fs ih =>
    intro mt mt2 hi h
    rw [List.foldlM_cons] at h
    cases hbind : recoverFile mt f with
    | none =>
      rw [hbind] at h
      cases h
    | some mt3 =>
      rw [hbind] at h
      have h2 : fs.foldlM recoverFile mt3 = some mt2 := h
      exact ih mt3 mt2 (recoverFile_inv hi hbind) h2

/-- Every memtable `Db::init_from_existing` builds from a directory scan,
whatever bytes the files hold, satisfies the memtable invariant. -/
theorem recoverMem_inv {files : List (List Nat)} {mt : MemTable}
    (h : recoverMem files = some mt) : MtInv mt :=
  foldlM_files_inv files MemTable.new mt mtInv_new h

/-- Folding a run of records whose keys all lie strictly above the memtable
in strictly increasing order simply appends them, charging each entry's
footprint. -/
theorem foldRecover_sorted_ext (es : List Entry) :
    ∀ mt : MemTable,
      (∀ e ∈ es, EntryOk e) →
      SortedEnts es →
      (∀ e ∈ es, ∀ x ∈ mt.entities, keyCmp x.key e.key = .lt) →
      es.foldlM foldRecover mt
        = some ⟨mt.entities ++ es, mt.size + (es.map charge).sum⟩ := by
  induction es with
  | nil =>
    intro mt _ _ _
    simp [List.foldlM_nil]
  | cons e es ih =>
    intro mt hok hsort hgt
    rw [List.foldlM_cons]
    obtain ⟨hhead, htail⟩ := List.pairwise_cons.mp hsort
    rcases e with ⟨k, val, ts, d⟩
    rcases val with - | v
    · have hd : d = true := hok ⟨k, none, ts, d⟩ (by simp)
      subst hd
      rw [foldRecover_del]
      show es.foldlM foldRecover (mt.delete k ts) = _
      have hgts : ∀ x ∈ mt.entities, keyCmp x.key k = .lt :=
        fun x hx => hgt ⟨k, none, ts, true⟩ (by simp) x hx
      have hdel : mt.delete k ts
          = ⟨mt.entities ++ [⟨k, none, ts, true⟩], mt.size + (k.length + 17)⟩ := by
        unfold MemTable.delete
        rw [delGo_gt_all hgts]
      rw [hdel, ih _ (fun x hx => hok x (List.mem_cons_of_mem _ hx)) htail ?hgt2]
      case hgt2 =>
        intro e2 he2 x hx
        rcases List.mem_append.mp hx with hx2 | hx2
        · exact hgt e2 (List.mem_cons_of_mem _ he2) x hx2
        · rw [List.mem_singleton.mp hx2]
          exact hhead e2 he2
      simp only [List.append_assoc, List.singleton_append, List.map_cons,
        List.sum_cons, charge_tomb]
      rw [Nat.add_assoc]
    · have hd : d = false := hok ⟨k, some v, ts, d⟩ (by simp)
      subst hd
      rw [foldRecover_set]
      show es.foldlM foldRecover (mt.set_or_insert k v ts) = _
      have hgts : ∀ x ∈ mt.entities, keyCmp x.key k = .lt :=
        fun x hx => hgt ⟨k, some v, ts, false⟩ (by simp) x hx
      have hset : mt.set_or_insert k v ts
          = ⟨mt.entities ++ [⟨k, some v, ts, false⟩],
              mt.size + (k.length + v.length + 17)⟩ := by
        unfold MemTable.set_or_insert
        rw [setGo_gt_all hgts]
      rw [hset, ih _ (fun x hx => hok x (List.mem_cons_of_mem _ hx)) htail ?hgt3]
      case hgt3 =>
        intro e2 he2 x hx
        rcases List.mem_append.mp hx with hx2 | hx2
        · exact hgt e2 (List.mem_cons_of_mem _ he2) x hx2
        · rw [List.mem_singleton.mp hx2]
          exact hhead e2 he2
      simp only [List.append_assoc, List.singleton_append, List.map_cons,
        List.sum_cons, charge_live]
      rw [Nat.add_assoc]

/-- Refolding a memtable's own (sorted, well-formed) entries into a fresh
memtable reproduces it exactly, size counter included. -/
theorem refold_sorted {mt : MemTable} (hi : MtInv mt) :
    (mt.entities).foldlM foldRecover MemTable.new = some mt := by
  obtain ⟨hsort, hwf, hsz⟩ := hi
  rw [foldRecover_sorted_ext mt.entities MemTable.new
    (fun e he => entryWf_ok (hwf e he)) hsort (fun e _ x hx => absurd hx (by simp [MemTable.new]))]
  rcases mt with ⟨ents, sz⟩
  simp only at hsz ⊢
  simp [MemTable.new, hsz]

theorem lastWrite_concat (ops : List Op) (op : Op) (k : List Nat) :
    lastWrite (ops ++ [op]) k
      = if opKey op = k then some op else lastWrite ops k := by
  unfold lastWrite
  rw [List.foldl_append, List.foldl_cons, List.foldl_nil]

/-- On any starting memtable, a call sequence leaves `get k` reporting the
record of the last call keyed `k`, or the prior entry if no call touched
`k`. -/
theorem applyMems_get (ops : List Op) (mt : MemTable) (k : List Nat) :
    (ops.foldl applyMem mt).get k
      = match lastWrite ops k with
        | some op => some (recordOf op)
        | none => mt.get k := by
  induction ops using List.reverseRecOn with
  | nil => rfl
  | append_singleton ops op ih =>
    rw [List.foldl_append, List.foldl_cons, List.foldl_nil, lastWrite_concat]
    by_cases hk : opKey op = k
    · rw [if_pos hk]
      cases op with
      | set k2 v ts =>
        have hk2 : k2 = k := hk
        subst hk2
        exact get_set_self _ _ _ _
      | del k2 ts =>
        have hk2 : k2 = k := hk
        subst hk2
        exact get_del_self _ _ _
    · rw [if_neg hk]
      cases op with
      | set k2 v ts =>
        have hk2 : k ≠ k2 := fun h => hk h.symm
        exact (get_set_ne _ _ _ _ hk2).trans ih
      | del k2 ts =>
        have hk2 : k ≠ k2 := fun h => hk h.symm
        exact (get_del_ne _ _ _ hk2).trans ih

theorem foldlM_recover_total (es : List Entry) (hwf : ∀ e ∈ es, EntryWf e) :
    ∀ mt : MemTable, ∃ mt2, es.foldlM foldRecover mt = some mt2 := by
  induction es with
  | nil =>
    intro mt
    exact ⟨mt, rfl⟩
  | cons e es ih =>
    intro mt
    obtain ⟨hk, hts, hval⟩ := hwf e (by simp)
    have hstep : ∃ mt3, foldRecover mt e = some mt3 := by
      rcases e with ⟨k2, val, ts2, d⟩
      rcases val with - | v
      · have hd : d = true := hval
        subst hd
        exact ⟨mt.delete k2 ts2, rfl⟩
      · have hd : d = false := hval.1
        subst hd
        exact ⟨mt.set_or_insert k2 v ts2, rfl⟩
    obtain ⟨mt3, hmt3⟩ := hstep
    obtain ⟨mt2, hmt2⟩ := ih (fun x hx => hwf x (List.mem_cons_of_mem e hx)) mt3
    refine ⟨mt2, ?_⟩
    rw [List.foldlM_cons, hmt3]
    exact hmt2

theorem recoverMem_single (f : List Nat) : recoverMem [f] = recoverFile MemTable.new f := by
  unfold recoverMem
  rw [List.foldlM_cons]
  cases h : recoverFile MemTable.new f with
  | none => rfl
  | some mt => rfl

/-- `init_from_existing` on a directory whose records fold successfully:
the result keeps that memtable, the directory keeps exactly one fresh
segment holding the memtable's dump. -/
theorem initFromExisting_total {files : List (List Nat)} {mt : MemTable}
    (h : recoverMem files = some mt) :
    initFromExisting files = some ⟨[], segmentOf mt.entities, mt⟩ := by
  have hinv := recoverMem_inv h
  have hok : ∀ e ∈ mt.entities, EntryOk e := fun e he => entryWf_ok (hinv.2.1 e he)
  unfold initFromExisting
  rw [h]
  show Option.map (fun nf => ({ others := [], active := nf, mem := mt } : Db)) (dumpMem mt)
      = _
  rw [dumpMem_ok hok]
  rfl

theorem getSnapshot_fold (l : List Entry) (acc : List Nat) (h : ∀ e ∈ l, EntryOk e) :
    l.foldlM
      (fun acc e =>
        if e.deleted = false then
          e.value.map (fun v => acc ++ Storage.setRecord e.key v false e.timestamp)
        else some acc)
      acc
      = some (acc ++ segmentOf (l.filter (fun e => e.deleted = false))) := by
  induction l generalizing acc with
  | nil => simp [segmentOf]
  | cons e es ih =>
    rw [List.foldlM_cons]
    have hok := h e (by simp)
    have htail : ∀ x ∈ es, EntryOk x := fun x hx => h x (List.mem_cons_of_mem e hx)
    rcases e with ⟨k, val, ts, d⟩
    rcases val with - | v
    · have hd : d = true := hok
      subst hd
      show es.foldlM _ acc = _
      rw [ih acc htail]
      norm_num
    · have hd : d = false := hok
      subst hd
      show es.foldlM _ (acc ++ Storage.setRecord k v false ts) = _
      rw [ih _ htail]
      have hfilter : List.filter (fun e => decide (e.deleted = false))
          (⟨k, some v, ts, false⟩ :: es)
          = ⟨k, some v, ts, false⟩ :: List.filter (fun e => decide (e.deleted = false)) es := by
        rw [List.filter_cons]
        norm_num
      rw [hfilter]
      have hseg : segmentOf
            (⟨k, some v, ts, false⟩ :: List.filter (fun e => decide (e.deleted = false)) es)
          = Storage.setRecord k v false ts
            ++ segmentOf (List.filter (fun e => decide (e.deleted = false)) es) := by
        simp [segmentOf, encodeEntry]
      rw [hseg, List.append_assoc]

/-- `Db::get_snapshot` emits exactly the live entries, in memtable (key)
order, each in the segment record layout. -/
theorem getSnapshot_eq {db : Db} (h : ∀ e ∈ db.mem.entities, EntryOk e) :
    db.getSnapshot
      = some (segmentOf (db.mem.entities.filter (fun e => e.deleted = false))) := by
  unfold Db.getSnapshot
  rw [getSnapshot_fold db.mem.entities [] h]
  simp

theorem snapStep_eq_foldRecover {mt : MemTable} {e : Entry} (hlive : e.deleted = false) :
    snapStep mt e = foldRecover mt e := by
  unfold snapStep foldRecover
  rw [if_pos hlive]

theorem foldlM_snapStep_live (es : List Entry) (hlive : ∀ e ∈ es, e.deleted = false) :
    ∀ mt : MemTable, es.foldlM snapStep mt = es.foldlM foldRecover mt := by
  induction es with
  | nil => intro mt; rfl
  | cons e es ih =>
    intro mt
    rw [List.foldlM_cons, List.foldlM_cons,
      snapStep_eq_foldRecover (hlive e (by simp))]
    cases hr : foldRecover mt e with
    | none => rfl
    | some mt2 =>
      show es.foldlM snapStep mt2 = es.foldlM foldRecover mt2
      exact ih (fun x hx => hlive x (List.mem_cons_of_mem e hx)) mt2

theorem foldlM_snapStep_isSome (es : List Entry) :
    ∀ mt : MemTable, (es.foldlM snapStep mt).isSome ↔ ∀ e ∈ es, e.value.isSome := by
  induction es with
  | nil =>
    intro mt
    simp
  | cons e es ih =>
    intro mt
    rw [List.foldlM_cons]
    cases hv : e.value with
    | none =>
      have hstep : snapStep mt e = none := by
        unfold snapStep
        rw [hv]
        rfl
      rw [hstep]
      simp [hv]
    | some v =>
      have hstep : snapStep mt e = some (mt.set_or_insert e.key v e.timestamp) := by
        unfold snapStep
        rw [hv]
        rfl
      rw [hstep]
      show (es.foldlM snapStep (mt.set_or_insert e.key v e.timestamp)).isSome ↔ _
      rw [ih]
      constructor
      · intro hall x hx
        rcases List.mem_cons.mp hx with h2 | h2
        · subst h2
          rw [hv]
          rfl
        · exact hall x h2
      · intro hall x hx
        exact hall x (List.mem_cons_of_mem e hx)

theorem wf_value_iff {e : Entry} (he : EntryWf e) : e.value.isSome = true ↔ e.deleted = false := by
  rcases e with ⟨k, val, ts, d⟩
  rcases val with - | v
  · have hd : d = true := he.2.2
    subst hd
    simp [Option.isSome]
  · have hd : d = false := he.2.2.1
    subst hd
    simp [Option.isSome]

theorem getGo_none_of_all_lt {k : List Nat} {l : List Entry}
    (h : ∀ x ∈ l, keyCmp k x.key = .lt) : getGo k l = none := by
  cases l with
  | nil => rfl
  | cons a as =>
    have := h a (by simp)
    simp only [getGo, this]

/-- Point lookup against a filtered sorted vector: the entry survives
exactly when the unfiltered lookup finds it and the predicate holds. -/
theorem getGo_filter_sorted {l : List Entry} (hs : SortedEnts l)
    (p : Entry → Bool) (k : List Nat) :
    getGo k (l.filter p)
      = (getGo k l).bind (fun e => if p e then some e else none) := by
  induction l with
  | nil => rfl
  | cons a as ih =>
    obtain ⟨hhead, htail⟩ := List.pairwise_cons.mp hs
    rw [List.filter_cons]
    cases hc : keyCmp k a.key with
    | eq =>
      have hk : k = a.key := keyCmp_eq_iff.mp hc
      by_cases hp : p a
      · rw [if_pos hp]
        simp only [getGo, hc]
        show some a = if p a = true then some a else none
        rw [if_pos hp]
      · rw [if_neg hp]
        simp only [getGo, hc]
        show _ = if p a = true then some a else none
        rw [if_neg hp]
        apply getGo_none_of_all_lt
        intro x hx
        obtain ⟨hxas, -⟩ := List.mem_filter.mp hx
        rw [hk]
        exact hhead x hxas
    | lt =>
      by_cases hp : p a
      · rw [if_pos hp]
        simp only [getGo, hc]
        rfl
      · rw [if_neg hp]
        simp only [getGo, hc]
        apply getGo_none_of_all_lt
        intro x hx
        obtain ⟨hxas, -⟩ := List.mem_filter.mp hx
        exact keyCmp_lt_trans hc (hhead x hxas)
    | gt =>
      by_cases hp : p a
      · rw [if_pos hp]
        simp only [getGo, hc]
        exact ih htail
      · rw [if_neg hp]
        simp only [getGo, hc]
        exact ih htail

/-- Importing a segment-layout blob of sorted live well-formed records into
a freshly opened empty engine parses each record back and inserts it. -/
theorem setSnapshot_fresh (les : List Entry) (hwf : ∀ e ∈ les, EntryWf e)
    (hlive : ∀ e ∈ les, e.deleted = false) (hsort : SortedEnts les) :
    Db.freshOpen.setSnapshot (segmentOf les)
      = some ⟨[], segmentOf les, ⟨les, (les.map charge).sum⟩⟩ := by
  unfold Db.setSnapshot
  show ((parseAll ([] ++ segmentOf les)).foldlM snapStep MemTable.new).map _ = _
  rw [List.nil_append, parseAll_segment_nil les hwf,
    foldlM_snapStep_live les hlive MemTable.new,
    foldRecover_sorted_ext les MemTable.new
      (fun e he => entryWf_ok (hwf e he)) hsort
      (fun e _ x hx => absurd hx (by simp [MemTable.new]))]
  simp [MemTable.new, Db.freshOpen]

/-- `Db::set_snapshot` completes exactly when no record of the rescanned
newest segment is a tombstone; any tombstone makes the `value.unwrap()`
panic. -/
theorem isSome_map {α β : Type} (f : α → β) (o : Option α) :
    (Option.map f o).isSome = o.isSome := by
  cases o <;> rfl

theorem setSnapshot_isSome (db : Db) (blob : List Nat) :
    (db.setSnapshot blob).isSome = true
      ↔ ∀ e ∈ parseAll (db.active ++ blob), e.deleted = false := by
  unfold Db.setSnapshot
  show (Option.map
      (fun mt => ({ others := db.others, active := db.active ++ blob, mem := mt } : Db))
      ((parseAll (db.active ++ blob)).foldlM snapStep db.mem)).isSome = true ↔ _
  rw [isSome_map, foldlM_snapStep_isSome]
  constructor
  · intro hall e he
    exact (wf_value_iff (parseAll_wf e he)).mp (hall e he)
  · intro hall e he
    exact (wf_value_iff (parseAll_wf e he)).mpr (hall e he)

instance (l : List Entry) : Decidable (SortedEnts l) := by
  unfold SortedEnts
  exact inferInstance

instance (mt : MemTable) : Decidable (MtInv mt) := by
  unfold MtInv
  exact inferInstance

/-- Concrete call sequence used by concrete instantiations:
`set "a" "1"; set "b" "2"; delete "a"` with timestamps 0, 1, 2. -/
def demoOps : List Op := [.set [97] [49] 0, .set [98] [50] 1, .del [97] 2]

/-- A concrete two-record segment: a live record then a tombstone. -/
def demoEntries : List Entry := [⟨[1], some [7], 0, false⟩, ⟨[2], none, 1, true⟩]

/-- The engine state `init_from_existing` produces from a directory holding
the single record `set [1] := [7]` at timestamp 0. -/
def demoDb1 : Db :=
  ⟨[], Storage.setRecord [1] [7] false 0, ⟨[⟨[1], some [7], 0, false⟩], 19⟩⟩

/-- C1: for every sequence of successful set/delete calls on an engine
opened on an empty directory, closing and reopening the directory with
`init_from_existing` succeeds and yields an engine whose `get` returns the
same record as before close for every key — live values and timestamps are
preserved and tombstones are retained, not dropped. -/
theorem claim_C1 (ops : List Op) (hwf : ∀ op ∈ ops, OpWf op) :
    ∃ db2 : Db, initFromExisting (runOps ops).dir = some db2
      ∧ db2.mem = (runOps ops).mem
      ∧ ∀ k, db2.get k = (runOps ops).get k := by
  have hdir : (runOps ops).dir = [(ops.map opBytes).flatten] := by
    rw [runOps_eq]
    rfl
  have hmem : (runOps ops).mem = ops.foldl applyMem MemTable.new := by
    rw [runOps_eq]
  have hrec : recoverMem (runOps ops).dir = some ((runOps ops).mem) := by
    rw [hdir, recoverMem_single]
    unfold recoverFile
    rw [parseAll_opsBytes ops hwf, foldlM_recover_ops, hmem]
  exact ⟨_, initFromExisting_total hrec, rfl, fun k => rfl⟩

theorem claim_C1_witness :
    ∃ db2 : Db, initFromExisting (runOps demoOps).dir = some db2
      ∧ db2.mem = (runOps demoOps).mem
      ∧ ∀ k, db2.get k = (runOps demoOps).get k :=
  claim_C1 demoOps (by decide)

/-- C2: on one engine instance, `set` makes `get` see the live record,
`delete` makes it see the tombstone, and over any call sequence from an
empty engine `get k` reports exactly the record of the last call keyed
`k` (or nothing if `k` was never touched). -/
theorem claim_C2 :
    (∀ (db : Db) (k v : List Nat) (ts : Nat),
        (db.set k v ts).get k = some ⟨k, some v, ts, false⟩)
    ∧ (∀ (db : Db) (k : List Nat) (ts : Nat),
        (db.delete k ts).get k = some ⟨k, none, ts, true⟩)
    ∧ ∀ (ops : List Op) (k : List Nat),
        (runOps ops).get k
          = match lastWrite ops k with
            | some op => some (recordOf op)
            | none => none := by
  refine ⟨?_, ?_, ?_⟩
  · intro db k v ts
    exact get_set_self _ _ _ _
  · intro db k ts
    exact get_del_self _ _ _
  · intro ops k
    have h1 : (runOps ops).get k = (ops.foldl applyMem MemTable.new).get k := by
      rw [show (runOps ops).get k = (runOps ops).mem.get k from rfl, runOps_eq]
    rw [h1, applyMems_get]
    cases lastWrite ops k <;> rfl

/-- C3: `get_snapshot` produces exactly the live (non-tombstone) memtable
entries, in key order, in the segment record layout; importing that blob
with `set_snapshot` into a freshly opened empty engine makes `get` return
each exported live record, and no tombstoned key of the source appears in
the target. -/
theorem claim_C3 (db : Db) (hinv : MtInv db.mem) :
    ∃ blob, db.getSnapshot = some blob
      ∧ blob = segmentOf (db.mem.entities.filter (fun e => e.deleted = false))
      ∧ ∃ db2 : Db, Db.freshOpen.setSnapshot blob = some db2
        ∧ (∀ k e, db.get k = some e → e.deleted = false → db2.get k = some e)
        ∧ (∀ k e, db.get k = some e → e.deleted = true → db2.get k = none) := by
  obtain ⟨hsort, hwf, hsz⟩ := hinv
  have hok : ∀ e ∈ db.mem.entities, EntryOk e := fun e he => entryWf_ok (hwf e he)
  refine ⟨_, getSnapshot_eq hok, rfl, ?_⟩
  have hwfl : ∀ e ∈ db.mem.entities.filter (fun e => e.deleted = false), EntryWf e := by
    intro e he
    exact hwf e (List.mem_of_mem_filter he)
  have hlive : ∀ e ∈ db.mem.entities.filter (fun e => e.deleted = false),
      e.deleted = false := by
    intro e he
    exact of_decide_eq_true (List.mem_filter.mp he).2
  have hsortl : SortedEnts (db.mem.entities.filter (fun e => e.deleted = false)) :=
    List.Pairwise.filter _ hsort
  refine ⟨_, setSnapshot_fresh _ hwfl hlive hsortl, ?_, ?_⟩
  · intro k e hget hlive2
    have hget2 : getGo k db.mem.entities = some e := hget
    show getGo k (db.mem.entities.filter (fun e => e.deleted = false)) = some e
    rw [getGo_filter_sorted hsort, hget2]
    show (if decide (e.deleted = false) = true then some e else none) = some e
    rw [if_pos (by rw [hlive2]; rfl)]
  · intro k e hget hdel2
    have hget2 : getGo k db.mem.entities = some e := hget
    show getGo k (db.mem.entities.filter (fun e => e.deleted = false)) = none
    rw [getGo_filter_sorted hsort, hget2]
    show (if decide (e.deleted = false) = true then some e else none) = none
    rw [if_neg (by rw [hdel2]; simp)]

theorem claim_C3_witness :
    ∃ blob, (runOps demoOps).getSnapshot = some blob
      ∧ blob = segmentOf ((runOps demoOps).mem.entities.filter (fun e => e.deleted = false))
      ∧ ∃ db2 : Db, Db.freshOpen.setSnapshot blob = some db2
        ∧ (∀ k e, (runOps demoOps).get k = some e → e.deleted = false → db2.get k = some e)
        ∧ (∀ k e, (runOps demoOps).get k = some e → e.deleted = true → db2.get k = none) :=
  claim_C3 (runOps demoOps) (by decide)

/-- The key `"Hello"` as bytes. -/
def helloKey : List Nat := [72, 101, 108, 108, 111]

/-- C4 (code bug): the live path writes an 8-byte `key_size` (via `as u64`),
but the tombstone path writes `key.len().to_le_bytes()` at the NATIVE
`usize` width.  On a 64-bit host the two layouts coincide (17-byte header),
but with a 4-byte `usize` the tombstone record is 4 bytes shorter than the
documented layout, contradicting the code's own layout comment
(`Key size (8B)`) and the spec's requirement. -/
theorem claim_C4_bug :
    (Storage.setRecord helloKey [] true 0).length = 17 + helloKey.length + 16
    ∧ (Storage.deleteRecord 8 helloKey 0).length = 17 + helloKey.length + 16
    ∧ (Storage.deleteRecord 4 helloKey 0).length = 13 + helloKey.length + 16
    ∧ Storage.deleteRecord 4 helloKey 0 ≠ Storage.deleteRecord 8 helloKey 0 := by
  decide

/-- C5: removing the last `m` bytes of a well-formed segment, `m` inside the
final record, leaves the iterator yielding exactly the records before the
truncated one (all records when `m = 0`), and `init_from_existing` on the
directory holding that file succeeds, folding exactly those records. -/
theorem claim_C5 (rs : List Entry) (m : Nat) (hwf : ∀ e ∈ rs, EntryWf e)
    (hne : rs ≠ []) (hm : m < (encodeEntry (rs.getLast hne)).length) :
    parseAll (truncTail (segmentOf rs) m) = (if m = 0 then rs else rs.dropLast)
    ∧ ∃ db : Db, initFromExisting [truncTail (segmentOf rs) m] = some db
        ∧ db.others = []
        ∧ (if m = 0 then rs else rs.dropLast).foldlM foldRecover MemTable.new
            = some db.mem := by
  have hparse : parseAll (truncTail (segmentOf rs) m)
      = (if m = 0 then rs else rs.dropLast) := by
    by_cases hm0 : m = 0
    · subst hm0
      rw [if_pos rfl]
      rw [show truncTail (segmentOf rs) 0 = segmentOf rs from by
        unfold truncTail
        rw [Nat.sub_zero, List.take_length]]
      exact parseAll_segment_nil rs hwf
    · rw [if_neg hm0]
      exact parseAll_truncated rs hwf hne (by omega) hm
  refine ⟨hparse, ?_⟩
  have hwf2 : ∀ e ∈ (if m = 0 then rs else rs.dropLast), EntryWf e := by
    by_cases hm0 : m = 0
    · rw [if_pos hm0]
      exact hwf
    · rw [if_neg hm0]
      exact fun e he => hwf e (List.dropLast_subset rs he)
  obtain ⟨mt2, hmt2⟩ := foldlM_recover_total _ hwf2 MemTable.new
  have hrec : recoverMem [truncTail (segmentOf rs) m] = some mt2 := by
    rw [recoverMem_single]
    unfold recoverFile
    rw [hparse]
    exact hmt2
  exact ⟨_, initFromExisting_total hrec, rfl, by rw [hmt2]⟩

theorem claim_C5_witness :
    parseAll (truncTail (segmentOf demoEntries) 5)
        = (if 5 = 0 then demoEntries else demoEntries.dropLast)
    ∧ ∃ db : Db, initFromExisting [truncTail (segmentOf demoEntries) 5] = some db
        ∧ db.others = []
        ∧ (if 5 = 0 then demoEntries else demoEntries.dropLast).foldlM foldRecover
            MemTable.new = some db.mem :=
  claim_C5 demoEntries 5 (by decide) (by decide) (by decide)

/-- C6: running `init_from_existing` twice back-to-back is idempotent — the
second run reproduces the same engine state (same memtable, entries, order
and size), and the directory after a run holds exactly one segment. -/
theorem claim_C6 {files : List (List Nat)} {db1 : Db}
    (h : initFromExisting files = some db1) :
    initFromExisting db1.dir = some db1 ∧ db1.others = [] := by
  unfold initFromExisting at h
  cases hrec : recoverMem files with
  | none =>
    rw [hrec] at h
    cases h
  | some mt =>
    rw [hrec] at h
    have h2 : Option.map (fun nf => (⟨[], nf, mt⟩ : Db)) (dumpMem mt) = some db1 := h
    have hinv := recoverMem_inv hrec
    have hok : ∀ e ∈ mt.entities, EntryOk e := fun e he => entryWf_ok (hinv.2.1 e he)
    rw [dumpMem_ok hok] at h2
    injection h2 with h2
    subst h2
    refine ⟨?_, rfl⟩
    have hrec2 : recoverMem [segmentOf mt.entities] = some mt := by
      rw [recoverMem_single]
      unfold recoverFile
      rw [parseAll_segment_nil mt.entities hinv.2.1]
      exact refold_sorted hinv
    exact initFromExisting_total hrec2

theorem claim_C6_witness :
    initFromExisting demoDb1.dir = some demoDb1 ∧ demoDb1.others = [] := by
  have hfiles : initFromExisting [Storage.setRecord [1] [7] false 0] = some demoDb1 := ?_
  exact claim_C6 hfiles
  have hseg : Storage.setRecord [1] [7] false 0
      = segmentOf [⟨[1], some [7], 0, false⟩] := by
    unfold segmentOf
    decide
  have hrec : recoverMem [Storage.setRecord [1] [7] false 0]
      = some (⟨[⟨[1], some [7], 0, false⟩], 19⟩ : MemTable) := by
    rw [recoverMem_single]
    unfold recoverFile
    rw [hseg, parseAll_segment_nil [⟨[1], some [7], 0, false⟩] (by decide)]
    rfl
  have := initFromExisting_total hrec
  rw [this]
  rw [show segmentOf (⟨[⟨[1], some [7], 0, false⟩], 19⟩ : MemTable).entities
      = Storage.setRecord [1] [7] false 0 from by rw [hseg]]
  rfl

/-- C7: after any sequence of memtable `set_or_insert`/`delete` operations
from an empty memtable, the size counter equals the sum over stored entries
of `key_len + (value_len if live else 0) + 17`, across all transition
shapes. -/
theorem claim_C7 (ops : List Op) :
    (ops.foldl applyMem MemTable.new).size
      = (((ops.foldl applyMem MemTable.new).entities).map charge).sum :=
  (mtAcc_foldl ops mtAcc_new).2

/-- C8: if the storage append or the commit of an engine `set`/`delete`
fails, the error is propagated and the memtable is untouched — `get`
answers exactly as before the failed call. -/
theorem claim_C8 (db : Db) (k v : List Nat) (ts : Nat) (appendOk commitOk : Bool)
    (h : appendOk = false ∨ commitOk = false) :
    ((db.setChecked k v ts appendOk commitOk).1.isSome = true
      ∧ (db.setChecked k v ts appendOk commitOk).2 = db.mem
      ∧ ∀ key, (db.setChecked k v ts appendOk commitOk).2.get key = db.mem.get key)
    ∧ ((db.deleteChecked k ts appendOk commitOk).1.isSome = true
      ∧ (db.deleteChecked k ts appendOk commitOk).2 = db.mem
      ∧ ∀ key, (db.deleteChecked k ts appendOk commitOk).2.get key = db.mem.get key) := by
  unfold Db.setChecked Db.deleteChecked
  rcases h with h | h
  · subst h
    simp
  · subst h
    cases appendOk <;> simp

theorem claim_C8_witness :
    ((Db.freshOpen.setChecked [1] [2] 0 false true).1.isSome = true
      ∧ (Db.freshOpen.setChecked [1] [2] 0 false true).2 = Db.freshOpen.mem
      ∧ ∀ key, (Db.freshOpen.setChecked [1] [2] 0 false true).2.get key
          = Db.freshOpen.mem.get key)
    ∧ ((Db.freshOpen.deleteChecked [1] 0 false true).1.isSome = true
      ∧ (Db.freshOpen.deleteChecked [1] 0 false true).2 = Db.freshOpen.mem
      ∧ ∀ key, (Db.freshOpen.deleteChecked [1] 0 false true).2.get key
          = Db.freshOpen.mem.get key) :=
  claim_C8 Db.freshOpen [1] [2] 0 false true (Or.inl rfl)

/-- C9: deleting an absent key succeeds (no error is reported), appends a
tombstone record to the active segment, and leaves a tombstone entry in the
memtable, so a later `get` returns a tombstone record rather than nothing. -/
theorem claim_C9 (db : Db) (k : List Nat) (ts : Nat) (habs : db.get k = none) :
    (db.deleteChecked k ts true true).1 = none
    ∧ (db.delete k ts).active = db.active ++ Storage.deleteRecord 8 k ts
    ∧ (db.delete k ts).get k = some ⟨k, none, ts, true⟩ := by
  refine ⟨rfl, rfl, ?_⟩
  exact get_del_self _ _ _

theorem claim_C9_witness :
    (Db.freshOpen.deleteChecked [5] 0 true true).1 = none
    ∧ (Db.freshOpen.delete [5] 0).active
        = Db.freshOpen.active ++ Storage.deleteRecord 8 [5] 0
    ∧ (Db.freshOpen.delete [5] 0).get [5] = some ⟨[5], none, 0, true⟩ :=
  claim_C9 Db.freshOpen [5] 0 (by decide)

/-- C10: `set_snapshot` completes without panicking precisely when, after
appending the blob, the newest segment holds no tombstone record; any
tombstone there makes the per-record `value.unwrap()` panic. -/
theorem claim_C10 (db : Db) (blob : List Nat) :
    (db.setSnapshot blob).isSome = true
      ↔ ∀ e ∈ parseAll (db.active ++ blob), e.deleted = false :=
  setSnapshot_isSome db blob
